import Mathlib

set_option maxRecDepth 8000

/-!
Shallow embedding of the sanitizer / validator / section limiter / slug
generator of `src/streamlit_app.py`.

Python strings are modelled as `List Char`.  Each regular-expression
operation of the source is modelled by a direct recursive scanner with the
same matching discipline (leftmost match, greedy `[^>]*` of the tag-token
patterns, lazy `.*?` of `<h2>.*?</h2>`-style patterns, case-insensitivity
via ASCII lower-casing).  Python's `\w`, `\s` and `str.lower` are modelled
at the ASCII level.  This diverges from Python's Unicode `\w` on non-ASCII
word characters (a tag such as `<p日>` is scanned as name `p日` by the
program but as `p` here), so the theorem characterizing the sanitizer as an
exact filter on tag tokens is stated only for all-ASCII fragments
(`asciiFrag`), where the two tokenizations agree; the remaining theorems
hold for the program on their full stated classes.
Recursions that consume a computed suffix of the string are written with an
explicit fuel argument (always called with fuel `> length`), so that every
definition evaluates by kernel reduction.
-/

/-- Shorthand: the character list of a string literal. -/
def toL (s : String) : List Char := s.toList

/-- ASCII model of Python whitespace (`\s`, `str.strip()`). -/
def pyIsSpace (c : Char) : Bool :=
  c = ' ' || c = '\t' || c = '\n' || c = '\r' || c = Char.ofNat 11 || c = Char.ofNat 12

/-- ASCII model of the Python regex class `\w`. -/
def wordChar (c : Char) : Bool := c.isAlphanum || c = '_'

/-- ASCII lower-casing (model of `str.lower()` and of `re.IGNORECASE`),
written as an explicit table so case analysis stays elementary. -/
def lowAscii (c : Char) : Char :=
  match c with
  | 'A' => 'a' | 'B' => 'b' | 'C' => 'c' | 'D' => 'd' | 'E' => 'e' | 'F' => 'f'
  | 'G' => 'g' | 'H' => 'h' | 'I' => 'i' | 'J' => 'j' | 'K' => 'k' | 'L' => 'l'
  | 'M' => 'm' | 'N' => 'n' | 'O' => 'o' | 'P' => 'p' | 'Q' => 'q' | 'R' => 'r'
  | 'S' => 's' | 'T' => 't' | 'U' => 'u' | 'V' => 'v' | 'W' => 'w' | 'X' => 'x'
  | 'Y' => 'y' | 'Z' => 'z'
  | c => c

/-- Case-insensitive: does `pat` start (as a literal, char for char) the
list `s`? -/
def ciStarts : List Char → List Char → Bool
  | [], _ => true
  | _ :: _, [] => false
  | p :: ps, c :: cs => (lowAscii p == lowAscii c) && ciStarts ps cs

/-- Index of the leftmost case-insensitive occurrence of `pat` in `s`
(the position at which `re.search` of a literal pattern would match). -/
def findCI (pat : List Char) : List Char → Option Nat
  | [] => if ciStarts pat [] then some 0 else none
  | c :: t => if ciStarts pat (c :: t) then some 0 else (findCI pat t).map (· + 1)

/-- `re.search(pat, s)` succeeds (for a literal, case-insensitive `pat`). -/
def containsCI (pat s : List Char) : Bool := (findCI pat s).isSome

/-- The leftmost match of the lazy pattern `op .*? cl` (`re.DOTALL`,
`re.IGNORECASE`), as in `H2_RE = re.compile(r'(<h2>.*?</h2>)', I|S)`:
returns (text before the match, the match, text after the match). -/
def findMatch (op cl s : List Char) : Option (List Char × List Char × List Char) :=
  match findCI op s with
  | none => none
  | some p =>
    match findCI cl (s.drop (p + op.length)) with
    | none => none
    | some q =>
      some (s.take p, (s.drop p).take (op.length + q + cl.length),
            s.drop (p + op.length + q + cl.length))

/-- All leftmost non-overlapping matches of `op .*? cl` together with the
inter-match texts: returns the list of (text before match, match) pairs and
the final remainder (models `re.finditer` / `re.findall` / `re.split` with
a capture group). -/
def chopF (op cl : List Char) : Nat → List Char → List (List Char × List Char) × List Char
  | 0, s => ([], s)
  | f + 1, s =>
    match findMatch op cl s with
    | none => ([], s)
    | some (t, m, r) =>
      let res := chopF op cl f r
      ((t, m) :: res.1, res.2)

def chop (op cl s : List Char) : List (List Char × List Char) × List Char :=
  chopF op cl (s.length + 1) s

def h2Op : List Char := toL "<h2>"
def h2Cl : List Char := toL "</h2>"
def h3Op : List Char := toL "<h3>"
def h3Cl : List Char := toL "</h3>"
def pOp : List Char := toL "<p>"
def pCl : List Char := toL "</p>"

/-- `count_h2(html) = len(H2_RE.findall(html))` (line 131-132). -/
def count_h2 (html : List Char) : Nat := (chop h2Op h2Cl html).1.length

/-- `parts = H2_RE.split(structure_html)` (line 135): with one capture
group, `re.split` returns text, match, text, match, ..., text. -/
def h2Parts (s : List Char) : List (List Char) :=
  ((chop h2Op h2Cl s).1.map (fun tm => [tm.1, tm.2])).flatten ++ [(chop h2Op h2Cl s).2]

/-- `H2_RE.match(chunk)` (line 141): an anchored match at position 0,
i.e. the chunk starts with `<h2>` and a `</h2>` follows. -/
def h2MatchAt0 (chunk : List Char) : Bool :=
  ciStarts h2Op chunk && containsCI h2Cl (chunk.drop h2Op.length)

/-- The `while` loop of `trim_h2_max` (lines 137-152): walks the parts
list; a matching chunk consumes itself and the following text chunk. -/
def trimGo (max_count : Nat) : List (List Char) → Nat → List (List Char)
  | [], _ => []
  | [chunk], seen =>
    if h2MatchAt0 chunk then (if seen + 1 ≤ max_count then [chunk] else [])
    else (if seen = 0 then [chunk] else [])
  | chunk :: next :: rest, seen =>
    if h2MatchAt0 chunk then
      (if seen + 1 ≤ max_count then chunk :: next :: trimGo max_count rest (seen + 1)
       else trimGo max_count rest (seen + 1))
    else (if seen = 0 then [chunk] else []) ++ trimGo max_count (next :: rest) seen

/-- `trim_h2_max(structure_html, max_count)` (lines 134-153). -/
def trim_h2_max (structure_html : List Char) (max_count : Nat) : List Char :=
  (trimGo max_count (h2Parts structure_html) 0).flatten

/-- Closed-form companion of `trim_h2_max`, used in proofs: keep the
preamble and the first `n` sections. -/
def trimSpecF : Nat → List Char → Nat → List Char
  | 0, s, _ => s
  | f + 1, s, n =>
    match findMatch h2Op h2Cl s with
    | none => s
    | some (t, m, r) => if n = 0 then t else t ++ m ++ trimSpecF f r (n - 1)

def trimSpec (s : List Char) (n : Nat) : List Char := trimSpecF (s.length + 1) s n

/-- The per-match sections of `validate_article` (lines 102-105): for each
`<h2>...</h2>` match, the text from its end to the start of the next match
(or to the end of the document). -/
def h2Sections (html : List Char) : List (List Char) :=
  match chop h2Op h2Cl html with
  | ([], _) => []
  | (_ :: ps, tail) => ps.map Prod.fst ++ [tail]

/-- `re.search(r'<h4|<script|<style', html, I)` (line 97). -/
def searchForbidden (html : List Char) : Bool :=
  containsCI (toL "<h4") html || containsCI (toL "<script") html ||
    containsCI (toL "<style") html

/-- The `\s*/?>` tail of the `<br\s*/?>` pattern: after the spaces, a
`>` or a `/>`; returns the text after the match. -/
def brTail : List Char → Option (List Char)
  | [] => none
  | c :: t =>
    if c = '>' then some t
    else if c = '/' then
      match t with
      | [] => none
      | c2 :: t2 => if c2 = '>' then some t2 else none
    else none

/-- One attempt of `<br\s*/?>` right after a `<` (lines 92 and 99). -/
def brParse (rest : List Char) : Option (List Char) :=
  if ciStarts (toL "br") rest then brTail ((rest.drop 2).dropWhile pyIsSpace) else none

/-- Does `<br\s*/?>` match at the head of `s`? -/
def matchBrAt : List Char → Bool
  | [] => false
  | c :: r => c = '<' && (brParse r).isSome

/-- Is there a position of `s` where `p` holds of the suffix? -/
def anySuffix (p : List Char → Bool) : List Char → Bool
  | [] => p []
  | c :: t => p (c :: t) || anySuffix p t

/-- `re.search(r'<br\s*/?>', html, I)` (lines 92 and 99). -/
def searchBr (html : List Char) : Bool := anySuffix matchBrAt html

/-- Is the next character a `\b` boundary after a word character? -/
def wordBoundaryAt (l : List Char) : Bool :=
  match l with
  | [] => true
  | c :: _ => !wordChar c

/-- Does `<(ul|ol|table)\b` match at the head of `s`? -/
def listTableAt : List Char → Bool
  | [] => false
  | c :: r =>
    c = '<' &&
      ((ciStarts (toL "ul") r && wordBoundaryAt (r.drop 2)) ||
       (ciStarts (toL "ol") r && wordBoundaryAt (r.drop 2)) ||
       (ciStarts (toL "table") r && wordBoundaryAt (r.drop 5)))

/-- `re.search(r'<(ul|ol|table)\b', section, I)` (line 107). -/
def hasListTable (sec : List Char) : Bool := anySuffix listTableAt sec

/-- Position of the leftmost `(<h2>|<h3>)` match in `r`, or `r.length`
when there is none (line 113-114). -/
def nextHeadEnd (r : List Char) : Nat :=
  match findCI h2Op r, findCI h3Op r with
  | none, none => r.length
  | some a, none => a
  | none, some b => b
  | some a, some b => min a b

/-- The per-`<h3>` blocks of `validate_article` (lines 110-115): for each
`<h3>...</h3>` match, the text from its end up to the next `<h2>`/`<h3>`. -/
def h3BlocksF : Nat → List Char → List (List Char)
  | 0, _ => []
  | f + 1, s =>
    match findMatch h3Op h3Cl s with
    | none => []
    | some (_, _, r) => r.take (nextHeadEnd r) :: h3BlocksF f r

def h3Blocks (s : List Char) : List (List Char) := h3BlocksF (s.length + 1) s

/-- `len(re.findall(r'<p>.*?</p>', block, S|I))` (line 116). -/
def pCount (block : List Char) : Nat := (chop pOp pCl block).1.length

/-- The group contents of `re.findall(r'<p>(.*?)</p>', html, S|I)`
(line 120): each match with the `<p>`/`</p>` wrappers cut off. -/
def pMid (m : List Char) : List Char := (m.drop 3).take (m.length - 7)

def pMids (html : List Char) : List (List Char) :=
  (chop pOp pCl html).1.map (fun tm => pMid tm.2)

/-- First `>` in the list, scanning left to right, failing at a newline
(the lazy `<.*?>` without `re.DOTALL` cannot cross `\n`). -/
def findGt : List Char → Option Nat
  | [] => none
  | c :: t => if c = '>' then some 0 else if c = '\n' then none else (findGt t).map (· + 1)

/-- `re.sub(r'<.*?>', '', s)` (lines 121 and 126; no DOTALL flag). -/
def stripTagsF : Nat → List Char → List Char
  | 0, s => s
  | _ + 1, [] => []
  | f + 1, c :: rest =>
    if c = '<' then
      match findGt rest with
      | some q => stripTagsF f (rest.drop (q + 1))
      | none => '<' :: stripTagsF f rest
    else c :: stripTagsF f rest

def stripTags (s : List Char) : List Char := stripTagsF (s.length + 1) s

/-- Python `str.strip()` (ASCII whitespace model). -/
def pyStrip (s : List Char) : List Char :=
  ((s.dropWhile pyIsSpace).reverse.dropWhile pyIsSpace).reverse

def wForbidden : String := "禁止タグ（h4/script/style）が含まれています。"
def wBr : String := "<br> タグは使用禁止です。すべて <p> に置き換えてください。"
def wSection : String := "H2セクションに表（table）または箇条書き（ul/ol）が不足しています。"
def wH3 : String := "各<h3>直下は4〜5文（<p>）が目安です。分量を調整してください。"
def wSentence : String := "一文が55文字を超えています。短く区切ってください。"
def wTotal : String := "記事全体が6000文字を超えています。要約・整理してください。"

/-- `validate_article(html)` (lines 95-129).  The paragraph-length loop of
lines 120-124 appends its warning for the first offending paragraph and
`break`s, i.e. it contributes `[wSentence]` exactly when some paragraph
offends. -/
def validate_article (html : List Char) : List String :=
  (if searchForbidden html then [wForbidden] else []) ++
  (if searchBr html then [wBr] else []) ++
  ((h2Sections html).map (fun sec => if hasListTable sec then [] else [wSection])).flatten ++
  ((h3Blocks html).map (fun b =>
      if pCount b < 3 || 6 < pCount b then [wH3] else [])).flatten ++
  (if (pMids html).any (fun p => 55 < (pyStrip (stripTags p)).length)
   then [wSentence] else []) ++
  (if 6000 < (pyStrip (stripTags html)).length then [wTotal] else [])

/-- Characters allowed by `[^>]`. -/
def notGt (c : Char) : Bool := !(c = '>')

/-- The optional `/` of `</?`. -/
def slashSkip : List Char → List Char
  | [] => []
  | c :: r' => if c = '/' then r' else c :: r'

/-- One attempt of `</?(\w+)[^>]*>` right after a `<` (line 88): optional
`/`, then a maximal nonempty `\w+` (the captured name), then everything up
to the first `>`.  Returns the name and the text after the token. -/
def parseTag (rest : List Char) : Option (List Char × List Char) :=
  let r := slashSkip rest
  let name := r.takeWhile wordChar
  if name.isEmpty then none
  else
    match (r.dropWhile wordChar).dropWhile notGt with
    | [] => none
    | _ :: after => some (name, after)

/-- `re.findall(r'</?(\w+)[^>]*>', html)` (line 88): the captured tag
names of all leftmost non-overlapping tag tokens. -/
def scanTagsF : Nat → List Char → List (List Char)
  | 0, _ => []
  | _ + 1, [] => []
  | f + 1, c :: rest =>
    if c = '<' then
      match parseTag rest with
      | some (n, after) => n :: scanTagsF f after
      | none => scanTagsF f rest
    else scanTagsF f rest

def scanTags (s : List Char) : List (List Char) := scanTagsF (s.length + 1) s

/-- One attempt of `</?{tag}[^>]*>` (line 91) right after a `<`. -/
def remParse (tag rest : List Char) : Option (List Char) :=
  let r := slashSkip rest
  if ciStarts tag r then
    match (r.drop tag.length).dropWhile notGt with
    | [] => none
    | _ :: after => some after
  else none

/-- `re.sub(rf'</?{tag}[^>]*>', '', html, flags=re.IGNORECASE)` (line 91). -/
def removeTagF (tag : List Char) : Nat → List Char → List Char
  | 0, s => s
  | _ + 1, [] => []
  | f + 1, c :: rest =>
    if c = '<' then
      match remParse tag rest with
      | some after => removeTagF tag f after
      | none => '<' :: removeTagF tag f rest
    else c :: removeTagF tag f rest

def removeTag (tag s : List Char) : List Char := removeTagF tag (s.length + 1) s

/-- `re.sub(r'<br\s*/?>', '', html, flags=re.IGNORECASE)` (line 92). -/
def removeBrF : Nat → List Char → List Char
  | 0, s => s
  | _ + 1, [] => []
  | f + 1, c :: rest =>
    if c = '<' then
      match brParse rest with
      | some after => removeBrF f after
      | none => '<' :: removeBrF f rest
    else c :: removeBrF f rest

def removeBr (s : List Char) : List Char := removeBrF (s.length + 1) s

/-- First-occurrence deduplication: the canonical model of iterating over
`set(tags)` (line 89; the true iteration order of a Python `set` of
strings is unspecified — `simplify_html_with` below exposes the order). -/
def dedupF (seen : List (List Char)) : List (List Char) → List (List Char)
  | [] => []
  | x :: xs => if seen.contains x then dedupF seen xs else x :: dedupF (x :: seen) xs

def dedupFirst (l : List (List Char)) : List (List Char) := dedupF [] l

/-- `ALLOWED_TAGS` (line 83). -/
def ALLOWED_TAGS : List String :=
  ["h2", "h3", "p", "strong", "em", "ul", "ol", "li", "table", "tr", "th", "td"]

/-- `tag.lower() in ALLOWED_TAGS` (line 90). -/
def allowedTag (n : List Char) : Bool := ALLOWED_TAGS.contains (String.mk (n.map lowAscii))

/-- The body of `simplify_html` (lines 87-93) with the iteration order of
`set(tags)` made explicit. -/
def simplify_html_with (order : List (List Char)) (html : List Char) : List Char :=
  removeBr (order.foldl (fun h tag => if allowedTag tag then h else removeTag tag h) html)

/-- `simplify_html(html)` (lines 87-93), with the set iterated in first
occurrence order. -/
def simplify_html (html : List Char) : List Char :=
  simplify_html_with (dedupFirst (scanTags html)) html

/-- `keyword_or_title.replace(jp, en)` — Python `str.replace`, leftmost
non-overlapping, case sensitive (lines 253-254). -/
def replaceAllF (pat rep : List Char) : Nat → List Char → List Char
  | 0, s => s
  | _ + 1, [] => []
  | f + 1, c :: cs =>
    if pat.isPrefixOf (c :: cs) then rep ++ replaceAllF pat rep f ((c :: cs).drop pat.length)
    else c :: replaceAllF pat rep f cs

def replaceAll (pat rep s : List Char) : List Char := replaceAllF pat rep (s.length + 1) s

/-- The `subs` dictionary of `generate_permalink` (lines 247-252), in
insertion order. -/
def SUBS : List (String × String) :=
  [("先払い買取", "sakibarai-kaitori"), ("先払い", "sakibarai"), ("買取", "kaitori"),
   ("口コミ", "kuchikomi"), ("評判", "hyoban"), ("体験談", "taiken"),
   ("レビュー", "review"), ("比較", "hikaku"), ("査定", "satei"),
   ("おすすめ", "osusume"), ("ランキング", "ranking"), ("評価", "hyoka"),
   ("申込", "moushikomi"), ("方法", "houhou"), ("流れ", "nagare"), ("手順", "tejun")]

/-- `[a-z0-9]`. -/
def slugChar (c : Char) : Bool := ('a' ≤ c && c ≤ 'z') || ('0' ≤ c && c ≤ '9')

mutual

/-- `re.sub(r'[^a-z0-9]+', '-', s)` (line 256): each maximal run of
characters outside `[a-z0-9]` becomes a single `-`. -/
def subNonAlnum : List Char → List Char
  | [] => []
  | c :: cs => if slugChar c then c :: subNonAlnum cs else '-' :: skipRun cs

/-- Continuation of `subNonAlnum` inside a non-alnum run. -/
def skipRun : List Char → List Char
  | [] => []
  | c :: cs => if slugChar c then c :: subNonAlnum cs else skipRun cs

end

/-- Python `str.strip('-')`. -/
def stripDashEnds (s : List Char) : List Char :=
  ((s.dropWhile (· = '-')).reverse.dropWhile (· = '-')).reverse

mutual

/-- `re.sub(r'-{2,}', '-', s)` (line 257). -/
def collapseDashes : List Char → List Char
  | [] => []
  | c :: cs => if c = '-' then '-' :: collapseAfterDash cs else c :: collapseDashes cs

/-- Continuation of `collapseDashes` right after an emitted dash. -/
def collapseAfterDash : List Char → List Char
  | [] => []
  | c :: cs => if c = '-' then collapseAfterDash cs else c :: collapseDashes cs

end

/-- Python `s.split('-')`. -/
def splitDash : List Char → List (List Char)
  | [] => [[]]
  | c :: cs =>
    match splitDash cs with
    | [] => [[c]]
    | seg :: segs => if c = '-' then [] :: seg :: segs else (c :: seg) :: segs

/-- Python `'-'.flatten(parts)`. -/
def joinDash : List (List Char) → List Char
  | [] => []
  | [x] => x
  | x :: y :: rest => x ++ '-' :: joinDash (y :: rest)

mutual

/-- Matcher for the regular expression `[a-z0-9]+(-[a-z0-9]+)*` anchored at
both ends: state "a nonempty segment must start here". -/
def slugStart : List Char → Bool
  | [] => false
  | c :: cs => slugChar c && slugBody cs

/-- State "inside a segment with at least one character read". -/
def slugBody : List Char → Bool
  | [] => true
  | c :: cs => if slugChar c then slugBody cs else c = '-' && slugStart cs

end

/-- `s` matches `^[a-z0-9]+(-[a-z0-9]+)*$`. -/
def isSlug (s : List Char) : Bool := slugStart s

/-- Characters that can appear in the output of `subNonAlnum`. -/
def slugDashChar (c : Char) : Bool := slugChar c || c = '-'

/-- Adjacent-pair relation: not two dashes in a row. -/
def dashFree (a b : Char) : Prop := ¬(a = '-' ∧ b = '-')

/-- The slug value computed by `generate_permalink` before the empty-string
fallback (lines 246-260).  `pyLower` abstracts the full-Unicode
`str.lower()` and `pyNFKD` abstracts `unicodedata.normalize('NFKD', ·)`;
every theorem below holds for arbitrary such functions. -/
def slugCore (pyLower pyNFKD : List Char → List Char) (keyword_or_title : List Char) :
    List Char :=
  let s0 := pyLower keyword_or_title
  let s1 := SUBS.foldl (fun acc pr => replaceAll (toL pr.1) (toL pr.2) acc) s0
  let s2 := pyNFKD s1
  let s3 := stripDashEnds (subNonAlnum s2)
  let s4 := collapseDashes s3
  if 50 < s4.length then joinDash ((splitDash s4).take 5) else s4

/-- `generate_permalink(keyword_or_title)` (lines 243-261); `ts` abstracts
`int(datetime.now().timestamp())` of the fallback branch. -/
def generate_permalink (pyLower pyNFKD : List Char → List Char) (ts : Nat)
    (keyword_or_title : List Char) : List Char :=
  let s := slugCore pyLower pyNFKD keyword_or_title
  if s = [] then toL "post-" ++ (Nat.repr ts).toList else s

/-! ### Well-formed fragments

A fragment is well formed when it is a concatenation of angle-bracket-free
text blocks and complete tag tokens `<name attrs>` / `</name attrs>` whose
attribute part contains no angle bracket and does not begin with a word
character.  The corrected sanitizer claims are proved on this class. -/

inductive HItem : Type where
  | text : List Char → HItem
  | tag : Bool → List Char → List Char → HItem
deriving DecidableEq

/-- Concrete text of one item: `.tag sl n a` renders as `<`, an optional
`/`, the name, the attributes, `>`. -/
def renderItem : HItem → List Char
  | .text t => t
  | .tag sl n a => '<' :: ((if sl then ['/'] else []) ++ n ++ a ++ ['>'])

def renderF (l : List HItem) : List Char := (l.map renderItem).flatten

def okText (t : List Char) : Bool := t.all fun c => c ≠ '<' && c ≠ '>'

def wfItem : HItem → Bool
  | .text t => okText t
  | .tag _ n a =>
    !n.isEmpty && n.all wordChar && a.all (fun c => c ≠ '<' && c ≠ '>') &&
      (match a with | [] => true | c :: _ => !wordChar c)

def wfFrag (l : List HItem) : Bool := l.all wfItem

/-- Every character of the rendered fragment is ASCII.  On such fragments
the ASCII models `wordChar`, `pyIsSpace` and `lowAscii` agree with Python's
Unicode `\w`, `\s` and `str.lower`, so the tokenization below is exactly the
program's. -/
def asciiFrag (l : List HItem) : Bool := (renderF l).all (fun c => c.toNat < 128)

/-- The tag names of a fragment, in order. -/
def tagNames (l : List HItem) : List (List Char) :=
  l.filterMap fun it => match it with | .text _ => none | .tag _ n _ => some n

/-- Does the removal pattern `</?{tag}[^>]*>` delete this item? -/
def hitsTag (tag : List Char) : HItem → Bool
  | .text _ => false
  | .tag _ n _ => ciStarts tag n

/-- An item that survives the whole removal loop run over `order`. -/
def keepItem (order : List (List Char)) (it : HItem) : Bool :=
  order.all fun tag => allowedTag tag || !hitsTag tag it

/-- A tag item matched by the final `<br\s*/?>` pass. -/
def isBrItem : HItem → Bool
  | .text _ => false
  | .tag sl n a =>
    !sl && (n.map lowAscii == toL "br") &&
      (let a' := a.dropWhile pyIsSpace; a'.isEmpty || a' == ['/'])

/-! ### Toolkit: `ciStarts` and `findCI` -/

theorem ciStarts_length_le {pat s : List Char} (h : ciStarts pat s = true) :
    pat.length ≤ s.length := by
  induction pat generalizing s with
  | nil => simp
  | cons p ps ih =>
    cases s with
    | nil => simp [ciStarts] at h
    | cons c cs =>
      simp only [ciStarts, Bool.and_eq_true] at h
      simpa using ih h.2

theorem ciStarts_append_stable {pat : List Char} :
    ∀ {u : List Char}, pat.length ≤ u.length → ∀ v w,
      ciStarts pat (u ++ v) = ciStarts pat (u ++ w) := by
  induction pat with
  | nil => intro u _ v w; rfl
  | cons p ps ih =>
    intro u hu v w
    cases u with
    | nil => simp at hu
    | cons a u' =>
      simp only [List.cons_append, ciStarts, List.append_eq]
      have := ih (u := u') (by simpa using hu) v w
      rw [this]

theorem ciStarts_of_append_left {pat u v : List Char} (h : pat.length ≤ u.length) :
    ciStarts pat (u ++ v) = ciStarts pat u := by
  have h1 := ciStarts_append_stable h v []
  simpa using h1

theorem findCI_le_length {pat s : List Char} {p : Nat} (h : findCI pat s = some p) :
    p ≤ s.length := by
  induction s generalizing p with
  | nil =>
    simp only [findCI] at h
    split at h
    · cases h; omega
    · simp at h
  | cons c t ih =>
    simp only [findCI] at h
    split at h
    · cases h; simp
    · cases hf : findCI pat t with
      | none => rw [hf] at h; simp at h
      | some p' =>
        rw [hf] at h
        simp only [Option.map_some'] at h
        cases h
        have := ih hf
        simp only [List.length_cons]
        omega


theorem findCI_some_starts {pat s : List Char} {p : Nat} (h : findCI pat s = some p) :
    ciStarts pat (s.drop p) = true := by
  induction s generalizing p with
  | nil =>
    simp only [findCI] at h
    split at h
    · rename_i hs; cases h; simpa using hs
    · simp at h
  | cons c t ih =>
    simp only [findCI] at h
    split at h
    · rename_i hs; cases h; simpa using hs
    · cases hf : findCI pat t with
      | none => rw [hf] at h; simp at h
      | some p' =>
        rw [hf] at h
        simp only [Option.map_some'] at h
        cases h
        simpa using ih hf

theorem findCI_some_min {pat s : List Char} {p : Nat} (h : findCI pat s = some p) :
    ∀ j, j < p → ciStarts pat (s.drop j) = false := by
  induction s generalizing p with
  | nil =>
    simp only [findCI] at h
    split at h
    · cases h; omega
    · simp at h
  | cons c t ih =>
    simp only [findCI] at h
    split at h
    · cases h; omega
    · rename_i hs
      cases hf : findCI pat t with
      | none => rw [hf] at h; simp at h
      | some p' =>
        rw [hf] at h
        simp only [Option.map_some'] at h
        cases h
        intro j hj
        cases j with
        | zero => simpa using hs
        | succ j' =>
          have := ih hf j' (by omega)
          simpa using this

theorem findCI_eq_some {pat s : List Char} {p : Nat}
    (h1 : ciStarts pat (s.drop p) = true)
    (h2 : ∀ j, j < p → ciStarts pat (s.drop j) = false) :
    findCI pat s = some p := by
  induction s generalizing p with
  | nil =>
    cases p with
    | zero => simp only [findCI]; simp_all
    | succ p' =>
      have := h2 0 (by omega)
      simp only [List.drop_nil] at h1 this
      rw [h1] at this; cases this
  | cons c t ih =>
    cases p with
    | zero =>
      simp only [List.drop_zero] at h1
      simp only [findCI, h1]; rfl
    | succ p' =>
      have h0 := h2 0 (by omega)
      simp only [List.drop_zero] at h0
      simp only [findCI, h0]
      have : findCI pat t = some p' := by
        apply ih
        · simpa using h1
        · intro j hj
          have := h2 (j + 1) (by omega)
          simpa using this
      rw [this]; rfl

theorem findCI_eq_none {pat s : List Char}
    (h : ∀ j, ciStarts pat (s.drop j) = false) : findCI pat s = none := by
  induction s with
  | nil =>
    have := h 0
    simp only [findCI]
    simp_all
  | cons c t ih =>
    have h0 := h 0
    simp only [List.drop_zero] at h0
    simp only [findCI, h0]
    have : findCI pat t = none := ih (fun j => by simpa using h (j + 1))
    rw [this]; rfl

theorem findCI_none_all {pat s : List Char} (h : findCI pat s = none) :
    ∀ j, ciStarts pat (s.drop j) = false := by
  induction s with
  | nil =>
    intro j
    simp only [findCI] at h
    simp only [List.drop_nil]
    split at h
    · cases h
    · rename_i hs; revert hs; cases ciStarts pat [] <;> simp
  | cons c t ih =>
    intro j
    simp only [findCI] at h
    split at h
    · cases h
    · rename_i hs
      have hn : findCI pat t = none := by
        cases hf : findCI pat t with
        | none => rfl
        | some p' => rw [hf] at h; simp at h
      cases j with
      | zero =>
        simp only [List.drop_zero]
        revert hs; cases ciStarts pat (c :: t) <;> simp
      | succ j' => simpa using ih hn j'

/-! ### Toolkit: `findMatch` -/

theorem ciStarts_false_of_short {pat s : List Char} (h : s.length < pat.length) :
    ciStarts pat s = false := by
  cases hc : ciStarts pat s with
  | false => rfl
  | true => exact absurd (ciStarts_length_le hc) (by omega)

theorem ciStarts_take {pat l : List Char} {n : Nat} (h : pat.length ≤ n) :
    ciStarts pat (l.take n) = ciStarts pat l := by
  rcases le_or_lt pat.length l.length with hl | hl
  · have h2 := @ciStarts_append_stable pat (l.take n)
      (by simp only [List.length_take]; omega) (l.drop n) []
    rw [List.take_append_drop, List.append_nil] at h2
    exact h2.symm
  · rw [ciStarts_false_of_short (s := l) hl, ciStarts_false_of_short]
    simp only [List.length_take]
    omega

theorem findMatch_cases {op cl s t m r : List Char}
    (h : findMatch op cl s = some (t, m, r)) :
    ∃ p q, findCI op s = some p ∧ findCI cl (s.drop (p + op.length)) = some q ∧
      t = s.take p ∧ m = (s.drop p).take (op.length + q + cl.length) ∧
      r = s.drop (p + op.length + q + cl.length) := by
  cases h1 : findCI op s with
  | none =>
    simp only [findMatch, h1] at h
    exact Option.noConfusion h
  | some p =>
    cases h2 : findCI cl (s.drop (p + op.length)) with
    | none =>
      simp only [findMatch, h1, h2] at h
      exact Option.noConfusion h
    | some q =>
      simp only [findMatch, h1, h2, Option.some.injEq, Prod.mk.injEq] at h
      exact ⟨p, q, rfl, h2, h.1.symm, h.2.1.symm, h.2.2.symm⟩

theorem findMatch_bound {op cl s t m r : List Char} (hop : op ≠ []) (hcl : cl ≠ [])
    (h : findMatch op cl s = some (t, m, r)) :
    ∃ p q, findCI op s = some p ∧ findCI cl (s.drop (p + op.length)) = some q ∧
      t = s.take p ∧ m = (s.drop p).take (op.length + q + cl.length) ∧
      r = s.drop (p + op.length + q + cl.length) ∧
      p + op.length + q + cl.length ≤ s.length ∧
      t.length = p ∧ m.length = op.length + q + cl.length := by
  rcases findMatch_cases h with ⟨p, q, h1, h2, ht, hm, hr⟩
  have hp := findCI_le_length h1
  have hq := findCI_le_length h2
  have hops := findCI_some_starts h1
  have hcls := findCI_some_starts h2
  have hop1 : 1 ≤ op.length := by cases op with | nil => simp at hop | cons a b => simp
  have hcl1 : 1 ≤ cl.length := by cases cl with | nil => simp at hcl | cons a b => simp
  have hA : op.length ≤ s.length - p := by
    have := ciStarts_length_le hops
    simpa using this
  have hB : cl.length ≤ s.length - (p + op.length) - q := by
    have := ciStarts_length_le hcls
    simp only [List.length_drop] at this
    omega
  have hbound : p + op.length + q + cl.length ≤ s.length := by omega
  refine ⟨p, q, h1, h2, ht, hm, hr, hbound, ?_, ?_⟩
  · rw [ht]
    simp only [List.length_take]
    omega
  · rw [hm]
    simp only [List.length_take, List.length_drop]
    omega

theorem findMatch_recon {op cl s t m r : List Char} (hop : op ≠ []) (hcl : cl ≠ [])
    (h : findMatch op cl s = some (t, m, r)) : t ++ (m ++ r) = s := by
  rcases findMatch_bound hop hcl h with ⟨p, q, _, _, ht, hm, hr, hb, htl, hml⟩
  rw [ht, hm, hr]
  rw [show p + op.length + q + cl.length = p + (op.length + q + cl.length) from by omega]
  rw [← List.drop_drop, List.take_append_drop, List.take_append_drop]

theorem findMatch_r_lt {op cl s t m r : List Char} (hop : op ≠ []) (hcl : cl ≠ [])
    (h : findMatch op cl s = some (t, m, r)) : r.length < s.length := by
  rcases findMatch_bound hop hcl h with ⟨p, q, _, _, ht, hm, hr, hb, htl, hml⟩
  have hop1 : 1 ≤ op.length := by cases op with | nil => simp at hop | cons a b => simp
  rw [hr]
  simp only [List.length_drop]
  omega

theorem findMatch_m_starts {op cl s t m r : List Char} (hop : op ≠ []) (hcl : cl ≠ [])
    (h : findMatch op cl s = some (t, m, r)) : ciStarts op m = true := by
  rcases findMatch_bound hop hcl h with ⟨p, q, h1, h2, ht, hm, hr, hb, htl, hml⟩
  have hops := findCI_some_starts h1
  rw [hm, ciStarts_take (by omega)]
  exact hops

theorem findMatch_t_no_op {op cl s t m r : List Char} (hop : op ≠ []) (hcl : cl ≠ [])
    (h : findMatch op cl s = some (t, m, r)) : findCI op t = none := by
  rcases findMatch_bound hop hcl h with ⟨p, q, h1, h2, ht, hm, hr, hb, htl, hml⟩
  have hop1 : 1 ≤ op.length := by cases op with | nil => simp at hop | cons a b => simp
  have hmin := findCI_some_min h1
  apply findCI_eq_none
  intro j
  rw [ht, List.drop_take]
  rcases le_or_lt op.length (p - j) with hc | hc
  · rw [ciStarts_take hc]
    exact hmin j (by omega)
  · apply ciStarts_false_of_short
    simp only [List.length_take, List.length_drop]
    omega

theorem findCI_close_mx {op cl s t m r : List Char} (hop : op ≠ []) (hcl : cl ≠ [])
    (h : findMatch op cl s = some (t, m, r)) (x : List Char) :
    findCI cl (m.drop op.length ++ x) = some (m.length - (op.length + cl.length)) := by
  rcases findMatch_bound hop hcl h with ⟨p, q, h1, h2, ht, hm, hr, hb, htl, hml⟩
  have hcls := findCI_some_starts h2
  have hclmin := findCI_some_min h2
  have hXlen : (s.drop (p + op.length)).length = s.length - (p + op.length) := by
    simp only [List.length_drop]
  have hA : m.drop op.length = (s.drop (p + op.length)).take (q + cl.length) := by
    rw [hm, List.drop_take, List.drop_drop]
    congr 1
    omega
  rw [hA]
  rw [show m.length - (op.length + cl.length) = q from by omega]
  apply findCI_eq_some
  · rw [List.drop_append_of_le_length (by simp only [List.length_take]; omega)]
    rw [List.drop_take]
    rw [show q + cl.length - q = cl.length from by omega]
    have hstab := @ciStarts_append_stable cl
      (((s.drop (p + op.length)).drop q).take cl.length)
      (by simp only [List.length_take, List.length_drop]; omega)
      (((s.drop (p + op.length)).drop q).drop cl.length) x
    rw [List.take_append_drop] at hstab
    rw [← hstab]
    exact hcls
  · intro j hj
    rw [List.drop_append_of_le_length (by simp only [List.length_take]; omega)]
    rw [List.drop_take]
    have hstab := @ciStarts_append_stable cl
      (((s.drop (p + op.length)).drop j).take (q + cl.length - j))
      (by simp only [List.length_take, List.length_drop]; omega)
      (((s.drop (p + op.length)).drop j).drop (q + cl.length - j)) x
    rw [List.take_append_drop] at hstab
    rw [← hstab]
    exact hclmin j hj

theorem findMatch_head {op cl s t m r : List Char} (hop : op ≠ []) (hcl : cl ≠ [])
    (h : findMatch op cl s = some (t, m, r)) (x : List Char) :
    findMatch op cl (m ++ x) = some ([], m, x) := by
  rcases findMatch_bound hop hcl h with ⟨p, q, h1, h2, ht, hm, hr, hb, htl, hml⟩
  have hms := findMatch_m_starts hop hcl h
  have hop1 : 1 ≤ op.length := by cases op with | nil => simp at hop | cons a b => simp
  have hcl1 : 1 ≤ cl.length := by cases cl with | nil => simp at hcl | cons a b => simp
  have g2 : findCI op (m ++ x) = some 0 := by
    apply findCI_eq_some
    · simp only [List.drop_zero]
      have hstab := @ciStarts_append_stable op m (by omega) x []
      rw [List.append_nil] at hstab
      rw [hstab, hms]
    · intro j hj; omega
  have g3 : (m ++ x).drop (0 + op.length) = m.drop op.length ++ x := by
    rw [Nat.zero_add, List.drop_append_of_le_length (by omega)]
  have g4 := findCI_close_mx hop hcl h x
  have harith : op.length + (m.length - (op.length + cl.length)) + cl.length
      = m.length := by omega
  simp only [findMatch, g2, g3, g4, harith, Option.some.injEq, Prod.mk.injEq]
  refine ⟨by simp, ?_, ?_⟩
  · simp only [List.drop_zero]
    exact List.take_left ..
  · rw [show 0 + op.length + (m.length - (op.length + cl.length)) + cl.length
      = m.length from by omega]
    exact List.drop_left ..

theorem findMatch_pre {op cl s t m r : List Char} (hop : op ≠ []) (hcl : cl ≠ [])
    (h : findMatch op cl s = some (t, m, r)) (x : List Char) :
    findMatch op cl (t ++ (m ++ x)) = some (t, m, x) := by
  rcases findMatch_bound hop hcl h with ⟨p, q, h1, h2, ht, hm, hr, hb, htl, hml⟩
  have hms := findMatch_m_starts hop hcl h
  have hmin := findCI_some_min h1
  have hrecon := findMatch_recon hop hcl h
  have hop1 : 1 ≤ op.length := by cases op with | nil => simp at hop | cons a b => simp
  have hcl1 : 1 ≤ cl.length := by cases cl with | nil => simp at hcl | cons a b => simp
  have g1 : findCI op (t ++ (m ++ x)) = some t.length := by
    apply findCI_eq_some
    · rw [List.drop_left]
      have hstab := @ciStarts_append_stable op m (by omega) x []
      rw [List.append_nil] at hstab
      rw [hstab, hms]
    · intro j hj
      rw [List.drop_append_of_le_length (by omega)]
      have hsj : ciStarts op (s.drop j) = false := hmin j (by omega)
      rw [← hrecon, List.drop_append_of_le_length (by omega)] at hsj
      rw [← List.append_assoc] at hsj ⊢
      have hstab := @ciStarts_append_stable op (t.drop j ++ m)
        (by simp only [List.length_append]; omega) x r
      rw [hstab]
      exact hsj
  have g3 : (t ++ (m ++ x)).drop (t.length + op.length) = m.drop op.length ++ x := by
    rw [List.drop_append_eq_append_drop]
    rw [List.drop_eq_nil_of_le (by omega), List.nil_append]
    rw [show t.length + op.length - t.length = op.length from by omega]
    rw [List.drop_append_of_le_length (by omega)]
  have g4 := findCI_close_mx hop hcl h x
  have harith : op.length + (m.length - (op.length + cl.length)) + cl.length
      = m.length := by omega
  simp only [findMatch, g1, g3, g4, harith, Option.some.injEq, Prod.mk.injEq]
  refine ⟨List.take_left .., ?_, ?_⟩
  · rw [List.drop_left]
    exact List.take_left ..
  · rw [show t.length + op.length + (m.length - (op.length + cl.length)) + cl.length
      = t.length + m.length from by omega]
    rw [List.drop_append_eq_append_drop]
    rw [List.drop_eq_nil_of_le (by omega), List.nil_append]
    rw [show t.length + m.length - t.length = m.length from by omega]
    exact List.drop_left ..

/-! ### Toolkit: `chop`, `count_h2`, `h2Sections`, `trimSpec` equations -/

theorem h2Op_ne : h2Op ≠ [] := by decide
theorem h2Cl_ne : h2Cl ≠ [] := by decide
theorem h3Op_ne : h3Op ≠ [] := by decide
theorem h3Cl_ne : h3Cl ≠ [] := by decide
theorem pOp_ne : pOp ≠ [] := by decide
theorem pCl_ne : pCl ≠ [] := by decide

theorem chopF_congr {op cl : List Char} (hop : op ≠ []) (hcl : cl ≠ []) :
    ∀ f₁ f₂ (s : List Char), s.length < f₁ → s.length < f₂ →
      chopF op cl f₁ s = chopF op cl f₂ s := by
  intro f₁
  induction f₁ with
  | zero => intro f₂ s h1 h2; omega
  | succ f ih =>
    intro f₂ s h1 h2
    cases f₂ with
    | zero => omega
    | succ f' =>
      simp only [chopF]
      cases hm : findMatch op cl s with
      | none => rfl
      | some tmr =>
        rcases tmr with ⟨t, m, r⟩
        have hlt := findMatch_r_lt hop hcl hm
        have := ih f' r (by omega) (by omega)
        simp only [this]

theorem chop_none {op cl s : List Char} (h : findMatch op cl s = none) :
    chop op cl s = ([], s) := by
  simp only [chop, chopF, h]

theorem chop_some {op cl s t m r : List Char} (hop : op ≠ []) (hcl : cl ≠ [])
    (h : findMatch op cl s = some (t, m, r)) :
    chop op cl s = ((t, m) :: (chop op cl r).1, (chop op cl r).2) := by
  have hlt := findMatch_r_lt hop hcl h
  have e : chopF op cl (s.length + 1) s
      = ((t, m) :: (chopF op cl s.length r).1, (chopF op cl s.length r).2) := by
    simp only [chopF, h]
  have e2 : chopF op cl s.length r = chopF op cl (r.length + 1) r :=
    chopF_congr hop hcl s.length (r.length + 1) r (by omega) (by omega)
  show chopF op cl (s.length + 1) s = _
  rw [e, e2]
  rfl

theorem count_h2_none {s : List Char} (h : findMatch h2Op h2Cl s = none) :
    count_h2 s = 0 := by
  simp only [count_h2, chop_none h, List.length_nil]

theorem count_h2_some {s t m r : List Char} (h : findMatch h2Op h2Cl s = some (t, m, r)) :
    count_h2 s = count_h2 r + 1 := by
  simp only [count_h2, chop_some h2Op_ne h2Cl_ne h, List.length_cons]

theorem h2Sections_none {s : List Char} (h : findMatch h2Op h2Cl s = none) :
    h2Sections s = [] := by
  simp only [h2Sections, chop_none h]

theorem h2Sections_some {s t m r : List Char} (h : findMatch h2Op h2Cl s = some (t, m, r)) :
    h2Sections s = (chop h2Op h2Cl r).1.map Prod.fst ++ [(chop h2Op h2Cl r).2] := by
  simp only [h2Sections, chop_some h2Op_ne h2Cl_ne h]

theorem trimSpecF_congr :
    ∀ f₁ f₂ (s : List Char) n, s.length < f₁ → s.length < f₂ →
      trimSpecF f₁ s n = trimSpecF f₂ s n := by
  intro f₁
  induction f₁ with
  | zero => intro f₂ s n h1 h2; omega
  | succ f ih =>
    intro f₂ s n h1 h2
    cases f₂ with
    | zero => omega
    | succ f' =>
      cases hm : findMatch h2Op h2Cl s with
      | none => simp only [trimSpecF, hm]
      | some tmr =>
        rcases tmr with ⟨t, m, r⟩
        have hlt := findMatch_r_lt h2Op_ne h2Cl_ne hm
        simp only [trimSpecF, hm]
        rw [ih f' r (n - 1) (by omega) (by omega)]

theorem trimSpec_none {s : List Char} {n : Nat} (h : findMatch h2Op h2Cl s = none) :
    trimSpec s n = s := by
  simp only [trimSpec, trimSpecF, h]

theorem trimSpec_some {s t m r : List Char} {n : Nat}
    (h : findMatch h2Op h2Cl s = some (t, m, r)) :
    trimSpec s n = if n = 0 then t else t ++ m ++ trimSpec r (n - 1) := by
  have hlt := findMatch_r_lt h2Op_ne h2Cl_ne h
  have e : trimSpecF (s.length + 1) s n
      = if n = 0 then t else t ++ m ++ trimSpecF s.length r (n - 1) := by
    simp only [trimSpecF, h]
  show trimSpecF (s.length + 1) s n = _
  rw [e, trimSpecF_congr s.length (r.length + 1) r (n - 1) (by omega) (by omega)]
  rfl

/-! ### Toolkit: `h2Parts`, `trimGo` and the closed form of `trim_h2_max` -/

theorem findMatch_of_no_op {op cl t : List Char} (h : findCI op t = none) :
    findMatch op cl t = none := by
  simp only [findMatch, h]

theorem h2MatchAt0_m {s t m r : List Char} (h : findMatch h2Op h2Cl s = some (t, m, r)) :
    h2MatchAt0 m = true := by
  have h1 := findMatch_m_starts h2Op_ne h2Cl_ne h
  have h2 := findCI_close_mx h2Op_ne h2Cl_ne h []
  rw [List.append_nil] at h2
  simp only [h2MatchAt0, h1, containsCI, h2, Option.isSome_some, Bool.and_self]

theorem h2MatchAt0_t {s t m r : List Char} (h : findMatch h2Op h2Cl s = some (t, m, r)) :
    h2MatchAt0 t = false := by
  have h1 := findCI_none_all (findMatch_t_no_op h2Op_ne h2Cl_ne h) 0
  simp only [List.drop_zero] at h1
  simp only [h2MatchAt0, h1, Bool.false_and]

theorem h2MatchAt0_of_none {s : List Char} (h : findMatch h2Op h2Cl s = none) :
    h2MatchAt0 s = false := by
  cases hc : ciStarts h2Op s with
  | false => simp only [h2MatchAt0, hc, Bool.false_and]
  | true =>
    have h0 : findCI h2Op s = some 0 := by
      cases s with
      | nil => simp only [findCI, hc]; rfl
      | cons c t => simp only [findCI, hc]; rfl
    simp only [findMatch, h0] at h
    cases h2 : findCI h2Cl (s.drop (0 + h2Op.length)) with
    | some q => rw [h2] at h; cases h
    | none =>
      rw [Nat.zero_add] at h2
      simp only [h2MatchAt0, containsCI, h2, Option.isSome_none, Bool.and_false]

theorem h2Parts_none {s : List Char} (h : findMatch h2Op h2Cl s = none) :
    h2Parts s = [s] := by
  simp only [h2Parts, chop_none h, List.map_nil, List.flatten_nil, List.nil_append]

theorem h2Parts_some {s t m r : List Char} (h : findMatch h2Op h2Cl s = some (t, m, r)) :
    h2Parts s = t :: m :: h2Parts r := by
  simp only [h2Parts, chop_some h2Op_ne h2Cl_ne h, List.map_cons, List.flatten_cons,
    List.cons_append, List.nil_append, List.append_assoc]

theorem h2Parts_cons (s : List Char) : ∃ p ps, h2Parts s = p :: ps := by
  cases hm : findMatch h2Op h2Cl s with
  | none => exact ⟨s, [], h2Parts_none hm⟩
  | some tmr =>
    rcases tmr with ⟨t, m, r⟩
    exact ⟨t, m :: h2Parts r, h2Parts_some hm⟩

theorem trimGo_dead (max_count : Nat) :
    ∀ (n : Nat) (parts : List (List Char)) (seen : Nat), parts.length ≤ n →
      1 ≤ seen → max_count ≤ seen → trimGo max_count parts seen = [] := by
  intro n
  induction n with
  | zero =>
    intro parts seen h1 _ _
    cases parts with
    | nil => rfl
    | cons a b => simp at h1
  | succ n ih =>
    intro parts seen h1 hs hm
    match parts with
    | [] => rfl
    | [chunk] =>
      simp only [trimGo]
      split
      · rw [if_neg (by omega)]
      · rw [if_neg (by omega)]
    | chunk :: next :: rest =>
      simp only [trimGo]
      split
      · rw [if_neg (by omega)]
        exact ih rest (seen + 1) (by simp at h1 ⊢; omega) (by omega) (by omega)
      · rw [if_neg (by omega), List.nil_append]
        exact ih (next :: rest) seen (by simp at h1 ⊢; omega) hs hm

theorem trimGo_tail :
    ∀ (n : Nat) (r : List Char) (seen max_count : Nat) (p₀ : List Char)
      (ps : List (List Char)), r.length ≤ n → 1 ≤ seen → seen ≤ max_count →
      h2Parts r = p₀ :: ps →
      p₀ ++ (trimGo max_count ps seen).flatten = trimSpec r (max_count - seen) := by
  intro n
  induction n with
  | zero =>
    intro r seen max_count p₀ ps h1 hs hm hsplit
    have hr : r = [] := by cases r with | nil => rfl | cons a b => simp at h1
    subst hr
    have hnone : findMatch h2Op h2Cl ([] : List Char) = none := by decide
    rw [h2Parts_none hnone] at hsplit
    cases hsplit
    rw [trimSpec_none hnone]
    rfl
  | succ n ih =>
    intro r seen max_count p₀ ps h1 hs hm hsplit
    cases hmr : findMatch h2Op h2Cl r with
    | none =>
      rw [h2Parts_none hmr] at hsplit
      cases hsplit
      rw [trimSpec_none hmr]
      simp [trimGo]
    | some tmr =>
      rcases tmr with ⟨t', m', r'⟩
      rw [h2Parts_some hmr] at hsplit
      cases hsplit
      rcases h2Parts_cons r' with ⟨p₁, ps', hsplit'⟩
      have hr'len : r'.length ≤ n := by
        have := findMatch_r_lt h2Op_ne h2Cl_ne hmr
        omega
      rw [hsplit']
      rcases le_or_lt (seen + 1) max_count with hle | hlt
      · have e : trimGo max_count (m' :: p₁ :: ps') seen
            = m' :: p₁ :: trimGo max_count ps' (seen + 1) := by
          simp [trimGo, h2MatchAt0_m hmr, hle]
        rw [e, trimSpec_some hmr, if_neg (show ¬(max_count - seen = 0) from by omega)]
        have hih := ih r' (seen + 1) max_count p₁ ps' hr'len (by omega) hle hsplit'
        simp only [List.flatten_cons]
        rw [show max_count - seen - 1 = max_count - (seen + 1) from by omega]
        rw [← hih]
        simp only [List.append_assoc]
      · have e : trimGo max_count (m' :: p₁ :: ps') seen
            = trimGo max_count ps' (seen + 1) := by
          simp [trimGo, h2MatchAt0_m hmr, show ¬(seen + 1 ≤ max_count) from by omega]
        rw [e, trimGo_dead max_count ps'.length ps' (seen + 1) (le_refl _)
          (by omega) (by omega)]
        rw [trimSpec_some hmr, if_pos (show max_count - seen = 0 from by omega)]
        simp

theorem trim_eq_trimSpec (s : List Char) (max_count : Nat) :
    trim_h2_max s max_count = trimSpec s max_count := by
  cases hm : findMatch h2Op h2Cl s with
  | none =>
    rw [trimSpec_none hm]
    simp only [trim_h2_max, h2Parts_none hm]
    simp [trimGo, h2MatchAt0_of_none hm]
  | some tmr =>
    rcases tmr with ⟨t, m, r⟩
    rcases h2Parts_cons r with ⟨p₁, ps', hsplit'⟩
    simp only [trim_h2_max, h2Parts_some hm, hsplit']
    have e0 : trimGo max_count (t :: m :: p₁ :: ps') 0
        = t :: trimGo max_count (m :: p₁ :: ps') 0 := by
      simp [trimGo, h2MatchAt0_t hm]
    rw [e0]
    rcases Nat.eq_zero_or_pos max_count with h0 | hpos
    · subst h0
      have e1 : trimGo 0 (m :: p₁ :: ps') 0 = trimGo 0 ps' 1 := by
        simp [trimGo, h2MatchAt0_m hm]
      rw [e1, trimGo_dead 0 ps'.length ps' 1 (le_refl _) (by omega) (by omega)]
      rw [trimSpec_some hm, if_pos rfl]
      simp
    · have e1 : trimGo max_count (m :: p₁ :: ps') 0
          = m :: p₁ :: trimGo max_count ps' 1 := by
        simp [trimGo, h2MatchAt0_m hm, show 0 + 1 ≤ max_count from by omega]
      rw [e1, trimSpec_some hm, if_neg (by omega)]
      have hih := trimGo_tail r.length r 1 max_count p₁ ps' (le_refl _) (by omega)
        (by omega) hsplit'
      simp only [List.flatten_cons]
      rw [show max_count - 1 = max_count - 1 from rfl] at hih
      rw [← hih]
      simp only [List.append_assoc]

theorem count_h2_pre {s t m r : List Char} (h : findMatch h2Op h2Cl s = some (t, m, r))
    (x : List Char) : count_h2 (t ++ (m ++ x)) = count_h2 x + 1 :=
  count_h2_some (findMatch_pre h2Op_ne h2Cl_ne h x)

theorem trimSpec_count :
    ∀ (nf : Nat) (s : List Char) (n : Nat), s.length ≤ nf →
      count_h2 (trimSpec s n) = min n (count_h2 s) := by
  intro nf
  induction nf with
  | zero =>
    intro s n h1
    have hs : s = [] := by cases s with | nil => rfl | cons a b => simp at h1
    subst hs
    have hnone : findMatch h2Op h2Cl ([] : List Char) = none := by decide
    rw [trimSpec_none hnone, count_h2_none hnone]
    simp
  | succ nf ih =>
    intro s n h1
    cases hm : findMatch h2Op h2Cl s with
    | none =>
      rw [trimSpec_none hm, count_h2_none hm]
      simp
    | some tmr =>
      rcases tmr with ⟨t, m, r⟩
      have hrlen : r.length ≤ nf := by
        have := findMatch_r_lt h2Op_ne h2Cl_ne hm
        omega
      rw [trimSpec_some hm, count_h2_some hm]
      rcases Nat.eq_zero_or_pos n with h0 | hpos
      · subst h0
        rw [if_pos rfl]
        have ht : findMatch h2Op h2Cl t = none :=
          findMatch_of_no_op (findMatch_t_no_op h2Op_ne h2Cl_ne hm)
        rw [count_h2_none ht]
        simp
      · rw [if_neg (by omega), List.append_assoc, count_h2_pre hm]
        rw [ih r (n - 1) hrlen]
        omega
  
theorem trimSpec_eq_self :
    ∀ (nf : Nat) (s : List Char) (n : Nat), s.length ≤ nf → count_h2 s ≤ n →
      trimSpec s n = s := by
  intro nf
  induction nf with
  | zero =>
    intro s n h1 h2
    have hs : s = [] := by cases s with | nil => rfl | cons a b => simp at h1
    subst hs
    exact trimSpec_none (by decide)
  | succ nf ih =>
    intro s n h1 h2
    cases hm : findMatch h2Op h2Cl s with
    | none => exact trimSpec_none hm
    | some tmr =>
      rcases tmr with ⟨t, m, r⟩
      have hrlen : r.length ≤ nf := by
        have := findMatch_r_lt h2Op_ne h2Cl_ne hm
        omega
      rw [count_h2_some hm] at h2
      rw [trimSpec_some hm, if_neg (by omega)]
      rw [ih r (n - 1) hrlen (by omega)]
      rw [List.append_assoc]
      exact findMatch_recon h2Op_ne h2Cl_ne hm

theorem trimSpec_take :
    ∀ (nf : Nat) (s : List Char) (n : Nat), s.length ≤ nf → n < count_h2 s →
      trimSpec s n = ((h2Parts s).take (2 * n + 1)).flatten := by
  intro nf
  induction nf with
  | zero =>
    intro s n h1 h2
    have hs : s = [] := by cases s with | nil => rfl | cons a b => simp at h1
    subst hs
    rw [count_h2_none (by decide)] at h2
    omega
  | succ nf ih =>
    intro s n h1 h2
    cases hm : findMatch h2Op h2Cl s with
    | none =>
      rw [count_h2_none hm] at h2
      omega
    | some tmr =>
      rcases tmr with ⟨t, m, r⟩
      have hrlen : r.length ≤ nf := by
        have := findMatch_r_lt h2Op_ne h2Cl_ne hm
        omega
      rw [count_h2_some hm] at h2
      rw [trimSpec_some hm, h2Parts_some hm]
      rcases Nat.eq_zero_or_pos n with h0 | hpos
      · subst h0
        rw [if_pos rfl]
        simp
      · rw [if_neg (by omega)]
        rw [show 2 * n + 1 = (2 * (n - 1) + 1) + 1 + 1 from by omega]
        simp only [List.take_succ_cons, List.flatten_cons]
        rw [ih r (n - 1) hrlen (by omega)]
        simp only [List.append_assoc]

/-! ### Toolkit: counting warnings in `validate_article` -/

theorem count_ite_ne {w w' : String} (h : w ≠ w') (c : Prop) [Decidable c] :
    ((if c then [w'] else []).count w) = 0 := by
  split <;> simp [List.count_cons, List.count_nil, h]

theorem count_ite_self (w' : String) (c : Prop) [Decidable c] :
    ((if c then [w'] else []).count w') = if c then 1 else 0 := by
  split <;> simp [List.count_cons, List.count_nil]

theorem count_flat_pos_ne {α : Type} {w w' : String} (h : w ≠ w') (l : List α)
    (p : α → Bool) :
    (((l.map (fun x => if p x then [w'] else [])).flatten).count w) = 0 := by
  induction l with
  | nil => rfl
  | cons a l ih =>
    simp only [List.map_cons, List.flatten_cons, List.count_append, ih]
    split <;> simp [List.count_cons, List.count_nil, h]

theorem count_flat_neg_ne {α : Type} {w w' : String} (h : w ≠ w') (l : List α)
    (p : α → Bool) :
    (((l.map (fun x => if p x then [] else [w'])).flatten).count w) = 0 := by
  induction l with
  | nil => rfl
  | cons a l ih =>
    simp only [List.map_cons, List.flatten_cons, List.count_append, ih]
    split <;> simp [List.count_cons, List.count_nil, h]

theorem count_flat_neg_self {α : Type} (w' : String) (l : List α) (p : α → Bool) :
    (((l.map (fun x => if p x then [] else [w'])).flatten).count w')
      = (l.filter (fun x => !p x)).length := by
  induction l with
  | nil => rfl
  | cons a l ih =>
    simp only [List.map_cons, List.flatten_cons, List.count_append, ih, List.filter_cons]
    cases hp : p a
    · simp [List.count_cons]
      omega
    · simp [List.count_cons]

theorem wneq1 : wForbidden ≠ wSection := by decide
theorem wneq2 : wBr ≠ wSection := by decide
theorem wneq3 : wH3 ≠ wSection := by decide
theorem wneq4 : wSentence ≠ wSection := by decide
theorem wneq5 : wTotal ≠ wSection := by decide
theorem wneq6 : wSection ≠ wForbidden := by decide
theorem wneq7 : wBr ≠ wForbidden := by decide
theorem wneq8 : wH3 ≠ wForbidden := by decide
theorem wneq9 : wSentence ≠ wForbidden := by decide
theorem wneq10 : wTotal ≠ wForbidden := by decide
theorem wneq11 : wForbidden ≠ wSentence := by decide
theorem wneq12 : wBr ≠ wSentence := by decide
theorem wneq13 : wH3 ≠ wSentence := by decide
theorem wneq14 : wSection ≠ wSentence := by decide
theorem wneq15 : wTotal ≠ wSentence := by decide

theorem validate_count_section (html : List Char) :
    (validate_article html).count wSection
      = ((h2Sections html).filter (fun sec => !hasListTable sec)).length := by
  simp only [validate_article, List.count_append]
  rw [count_ite_ne wneq6, count_ite_ne wneq2.symm,
    count_flat_neg_self wSection (h2Sections html) (fun sec => hasListTable sec),
    count_flat_pos_ne wneq3.symm, count_ite_ne wneq14, count_ite_ne wneq5.symm]
  omega

theorem validate_count_forbidden (html : List Char) :
    (validate_article html).count wForbidden
      = if searchForbidden html then 1 else 0 := by
  simp only [validate_article, List.count_append]
  rw [count_ite_self, count_ite_ne wneq7.symm, count_flat_neg_ne wneq1,
    count_flat_pos_ne wneq8.symm, count_ite_ne wneq11, count_ite_ne wneq10.symm]
  omega

theorem validate_count_sentence (html : List Char) :
    (validate_article html).count wSentence
      = if (pMids html).any (fun p => 55 < (pyStrip (stripTags p)).length)
        then 1 else 0 := by
  simp only [validate_article, List.count_append]
  rw [count_ite_ne wneq9, count_ite_ne wneq12.symm, count_flat_neg_ne wneq4,
    count_flat_pos_ne wneq13.symm, count_ite_self, count_ite_ne wneq15.symm]
  omega

theorem findCI_drop_none {pat s : List Char} (h : findCI pat s = none) (k : Nat) :
    findCI pat (s.drop k) = none := by
  apply findCI_eq_none
  intro j
  rw [List.drop_drop]
  exact findCI_none_all h (k + j)

theorem findMatch_of_no_cl {op cl s : List Char} (h : findCI cl s = none) :
    findMatch op cl s = none := by
  cases h1 : findCI op s with
  | none => simp only [findMatch, h1]
  | some p => simp only [findMatch, h1, findCI_drop_none h (p + op.length)]

/-! ### Claims -/

/-- C5.  For every fragment `f` and `n ≥ 0`: the number of top-level
`<h2>`-delimited sections (as counted by `count_h2`) of `trim_h2_max f n`
is `min n (count_h2 f)`; when `count_h2 f ≤ n` the fragment is returned
unchanged; and when `count_h2 f > n` the result is the pre-heading
preamble followed by the first `n` sections verbatim (the first `2n+1`
chunks of the `H2_RE.split` parts list). -/
theorem claim_C5 (f : List Char) (n : Nat) :
    count_h2 (trim_h2_max f n) = min n (count_h2 f) ∧
    (count_h2 f ≤ n → trim_h2_max f n = f) ∧
    (n < count_h2 f → trim_h2_max f n = ((h2Parts f).take (2 * n + 1)).flatten) := by
  rw [trim_eq_trimSpec]
  exact ⟨trimSpec_count f.length f n (le_refl _),
    fun h => trimSpec_eq_self f.length f n (le_refl _) h,
    fun h => trimSpec_take f.length f n (le_refl _) h⟩

theorem claim_C5_witness :
    count_h2 (trim_h2_max (toL "pre<h2>a</h2>x<h2>b</h2>y") 1)
        = min 1 (count_h2 (toL "pre<h2>a</h2>x<h2>b</h2>y")) ∧
    trim_h2_max (toL "pre<h2>a</h2>x<h2>b</h2>y") 2 = toL "pre<h2>a</h2>x<h2>b</h2>y" ∧
    trim_h2_max (toL "pre<h2>a</h2>x<h2>b</h2>y") 1
        = ((h2Parts (toL "pre<h2>a</h2>x<h2>b</h2>y")).take (2 * 1 + 1)).flatten :=
  ⟨(claim_C5 (toL "pre<h2>a</h2>x<h2>b</h2>y") 1).1,
   (claim_C5 (toL "pre<h2>a</h2>x<h2>b</h2>y") 2).2.1 (by decide),
   (claim_C5 (toL "pre<h2>a</h2>x<h2>b</h2>y") 1).2.2 (by decide)⟩

/-- C6.  `validate_article` emits: at most one forbidden-tag warning for
the whole document (however many `h4`/`script`/`style` occurrences there
are); exactly one missing-list/table warning per `<h2>` section whose text
contains no `ul`/`ol`/`table` element (not deduplicated across sections);
and at most one sentence-length warning for the whole document (the
paragraph loop stops at the first offending paragraph). -/
theorem claim_C6 (html : List Char) :
    (validate_article html).count wForbidden ≤ 1 ∧
    (validate_article html).count wSection
      = ((h2Sections html).filter (fun sec => !hasListTable sec)).length ∧
    (validate_article html).count wSentence ≤ 1 := by
  refine ⟨?_, validate_count_section html, ?_⟩
  · rw [validate_count_forbidden]; split <;> omega
  · rw [validate_count_sentence]; split <;> omega

/-- C10.  The missing-list/table rule of `validate_article` looks only at
the text after each `<h2>...</h2>` match: a fragment with no `<h2>` match
at all yields no such warning, and deleting everything before the first
`<h2>` match leaves the number of missing-list/table warnings unchanged
(so content preceding the first `<h2>` can never produce one). -/
theorem claim_C10 :
    (∀ html : List Char, count_h2 html = 0 →
        (validate_article html).count wSection = 0) ∧
    (∀ html t m r : List Char, findMatch h2Op h2Cl html = some (t, m, r) →
        (validate_article html).count wSection
          = (validate_article (m ++ r)).count wSection) := by
  constructor
  · intro html h0
    cases hm : findMatch h2Op h2Cl html with
    | none =>
      rw [validate_count_section, h2Sections_none hm]
      rfl
    | some tmr =>
      rcases tmr with ⟨t, m, r⟩
      rw [count_h2_some hm] at h0
      omega
  · intro html t m r hm
    rw [validate_count_section, validate_count_section]
    rw [h2Sections_some hm, h2Sections_some (findMatch_head h2Op_ne h2Cl_ne hm r)]

theorem claim_C10_witness :
    (validate_article (toL "<ul></ul>")).count wSection = 0 ∧
    (validate_article (toL "x<h2>A</h2>y")).count wSection
      = (validate_article (toL "<h2>A</h2>" ++ toL "y")).count wSection :=
  ⟨claim_C10.1 (toL "<ul></ul>") (by decide),
   claim_C10.2 (toL "x<h2>A</h2>y") (toL "x") (toL "<h2>A</h2>") (toL "y") (by decide)⟩

/-- C9.  The heading recognizers (`count_h2`, `trim_h2_max`, the section
partition of `validate_article`) accept only a literal attribute-free
`<h2>` opening tag with a matching `</h2>` (case-insensitively): a
fragment with no literal `<h2>` token (e.g. one whose `h2` opening tag
carries attributes), or with no closing `</h2>` at all, has zero sections,
is returned unchanged by `trim_h2_max` for every bound, and gets no
per-section warning — while such `h2` tags survive `simplify_html`
unchanged, since `h2` is allow-listed. -/
theorem claim_C9 :
    (∀ (f : List Char) (n : Nat), findCI h2Op f = none →
        count_h2 f = 0 ∧ trim_h2_max f n = f ∧
          (validate_article f).count wSection = 0) ∧
    (∀ (f : List Char) (n : Nat), findCI h2Cl f = none →
        count_h2 f = 0 ∧ trim_h2_max f n = f ∧
          (validate_article f).count wSection = 0) ∧
    simplify_html (toL "<h2 class=\"x\">A</h2><p>B</p>")
      = toL "<h2 class=\"x\">A</h2><p>B</p>" ∧
    simplify_html (toL "<h2>Title") = toL "<h2>Title" := by
  have key : ∀ (f : List Char) (n : Nat), findMatch h2Op h2Cl f = none →
      count_h2 f = 0 ∧ trim_h2_max f n = f ∧
        (validate_article f).count wSection = 0 := by
    intro f n hm
    refine ⟨count_h2_none hm, ?_, ?_⟩
    · rw [trim_eq_trimSpec, trimSpec_none hm]
    · rw [validate_count_section, h2Sections_none hm]
      rfl
  refine ⟨fun f n h => key f n (findMatch_of_no_op h),
    fun f n h => key f n (findMatch_of_no_cl h), by decide, by decide⟩

theorem claim_C9_witness :
    (count_h2 (toL "<h2 class=\"x\">A</h2><p>B</p>") = 0 ∧
      trim_h2_max (toL "<h2 class=\"x\">A</h2><p>B</p>") 0
        = toL "<h2 class=\"x\">A</h2><p>B</p>" ∧
      (validate_article (toL "<h2 class=\"x\">A</h2><p>B</p>")).count wSection = 0) ∧
    (count_h2 (toL "<h2>Title") = 0 ∧
      trim_h2_max (toL "<h2>Title") 3 = toL "<h2>Title" ∧
      (validate_article (toL "<h2>Title")).count wSection = 0) :=
  ⟨claim_C9.1 (toL "<h2 class=\"x\">A</h2><p>B</p>") 0 (by decide),
   claim_C9.2.1 (toL "<h2>Title") 3 (by decide)⟩

/-! ### Toolkit: the slug pipeline -/

theorem slugChar_ne_dash {c : Char} (h : slugChar c = true) : c ≠ '-' := by
  intro he
  subst he
  simp [slugChar] at h

theorem subNonAlnum_inv (x : List Char) :
    ((subNonAlnum x).all slugDashChar = true ∧
      List.Chain' dashFree (subNonAlnum x)) ∧
    ((skipRun x).all slugDashChar = true ∧
      List.Chain' dashFree ('-' :: skipRun x)) := by
  induction x with
  | nil =>
    refine ⟨⟨rfl, ?_⟩, ⟨rfl, ?_⟩⟩
    · simp [subNonAlnum]
    · simp [skipRun]
  | cons c cs ih =>
    obtain ⟨⟨ha, hc⟩, ⟨hb, hd⟩⟩ := ih
    by_cases hsc : slugChar c = true
    · have hcd := slugChar_ne_dash hsc
      have hchain : List.Chain' dashFree (c :: subNonAlnum cs) := by
        rw [List.chain'_cons']
        exact ⟨fun b _ => fun ⟨h1, _⟩ => hcd h1, hc⟩
      refine ⟨⟨?_, ?_⟩, ⟨?_, ?_⟩⟩
      · simp only [subNonAlnum, hsc, if_true, List.all_cons, ha, Bool.and_true]
        simp [slugDashChar, hsc]
      · simp only [subNonAlnum, hsc, if_true]
        exact hchain
      · simp only [skipRun, hsc, if_true, List.all_cons, ha, Bool.and_true]
        simp [slugDashChar, hsc]
      · simp only [skipRun, hsc, if_true]
        rw [List.chain'_cons']
        refine ⟨?_, hchain⟩
        intro b hb'
        simp only [List.head?_cons, Option.mem_some_iff] at hb'
        exact fun ⟨_, h2⟩ => hcd (hb' ▸ h2)
    · have hsc' : slugChar c = false := by revert hsc; cases slugChar c <;> simp
      refine ⟨⟨?_, ?_⟩, ⟨?_, ?_⟩⟩
      · simp only [subNonAlnum, hsc', Bool.false_eq_true, if_false, List.all_cons, hb,
          Bool.and_true]
        simp [slugDashChar]
      · simp only [subNonAlnum, hsc', Bool.false_eq_true, if_false]
        exact hd
      · simp only [skipRun, hsc', Bool.false_eq_true, if_false]
        exact hb
      · simp only [skipRun, hsc', Bool.false_eq_true, if_false]
        exact hd

theorem stripDashEnds_inv {y : List Char} (ha : y.all slugDashChar = true)
    (hc : List.Chain' dashFree y) :
    (stripDashEnds y).all slugDashChar = true ∧
    List.Chain' dashFree (stripDashEnds y) ∧
    (∀ c t, stripDashEnds y = c :: t → c ≠ '-') ∧
    (∀ c t, (stripDashEnds y).reverse = c :: t → c ≠ '-') := by
  have hflip : ∀ l : List Char, List.Chain' dashFree l → List.Chain' (flip dashFree) l := by
    intro l hl
    have : (flip dashFree : Char → Char → Prop) = dashFree := by
      funext a b
      simp only [flip, dashFree, eq_iff_iff]
      constructor
      · exact fun h => fun ⟨h1, h2⟩ => h ⟨h2, h1⟩
      · exact fun h => fun ⟨h1, h2⟩ => h ⟨h2, h1⟩
    rw [this]
    exact hl
  set z1 := y.dropWhile (· = '-') with hz1
  have ha1 : z1.all slugDashChar = true :=
    List.all_eq_true.mpr fun x hx =>
      List.all_eq_true.mp ha x ((List.dropWhile_suffix _).subset hx)
  have hc1 : List.Chain' dashFree z1 := hc.suffix (List.dropWhile_suffix _)
  have hh1 : ∀ c t, z1 = c :: t → c ≠ '-' := by
    intro c t he
    have hhd := List.head?_dropWhile_not (· = '-') y
    rw [← hz1, he] at hhd
    simp only [List.head?_cons, Option.mem_some_iff] at hhd
    intro hcc
    simp [hcc] at hhd
  set z2 := z1.reverse.dropWhile (· = '-') with hz2
  have ha2 : z2.all slugDashChar = true := by
    apply List.all_eq_true.mpr
    intro x hx
    have : x ∈ z1.reverse := (List.dropWhile_suffix _).subset hx
    exact List.all_eq_true.mp ha1 x (by simpa using this)
  have hc2 : List.Chain' dashFree z2 := by
    have : List.Chain' dashFree z1.reverse := by
      rw [List.chain'_reverse]
      exact hflip _ hc1
    exact this.suffix (List.dropWhile_suffix _)
  have hh2 : ∀ c t, z2 = c :: t → c ≠ '-' := by
    intro c t he
    have hhd := List.head?_dropWhile_not (· = '-') z1.reverse
    rw [← hz2, he] at hhd
    simp only [List.head?_cons, Option.mem_some_iff] at hhd
    intro hcc
    simp [hcc] at hhd
  have hfin : stripDashEnds y = z2.reverse := by
    simp only [stripDashEnds, ← hz1, ← hz2]
  refine ⟨?_, ?_, ?_, ?_⟩
  · rw [hfin]
    apply List.all_eq_true.mpr
    intro x hx
    exact List.all_eq_true.mp ha2 x (by simpa using hx)
  · rw [hfin, List.chain'_reverse]
    exact hflip _ hc2
  · rw [hfin]
    intro c t he
    obtain ⟨u, hu⟩ := List.dropWhile_suffix (l := z1.reverse) (· = '-')
    rw [← hz2] at hu
    have hz1e : z1 = c :: (t ++ u.reverse) := by
      have : z1 = z2.reverse ++ u.reverse := by
        rw [← List.reverse_append, hu, List.reverse_reverse]
      rw [this, he]
      simp
    exact hh1 c (t ++ u.reverse) hz1e
  · rw [hfin, List.reverse_reverse]
    exact hh2

theorem collapseDashes_id (y : List Char) :
    (List.Chain' dashFree y → collapseDashes y = y) ∧
    (List.Chain' dashFree y → (∀ c t, y = c :: t → c ≠ '-') →
      collapseAfterDash y = y) := by
  induction y with
  | nil => exact ⟨fun _ => rfl, fun _ _ => rfl⟩
  | cons c cs ih =>
    constructor
    · intro hch
      by_cases hd : c = '-'
      · subst hd
        have htail : List.Chain' dashFree cs := hch.tail
        have hhd : ∀ c' t, cs = c' :: t → c' ≠ '-' := by
          intro c' t he
          subst he
          have := List.chain'_cons.mp hch
          exact fun hcc => this.1 ⟨rfl, hcc⟩
        simp [collapseDashes, (ih.2) htail hhd]
      · simp only [collapseDashes, if_neg hd]
        rw [(ih.1) hch.tail]
    · intro hch hhd
      have hd : c ≠ '-' := hhd c cs rfl
      simp only [collapseAfterDash, if_neg hd]
      rw [(ih.1) hch.tail]

theorem slugBody_all (l : List Char) (h : l.all slugChar = true) :
    slugBody l = true := by
  induction l with
  | nil => rfl
  | cons c cs ih =>
    simp only [List.all_cons, Bool.and_eq_true] at h
    simp only [slugBody, h.1, if_pos rfl]
    exact ih h.2

theorem slug_of_inv (z : List Char) :
    (z ≠ [] → z.all slugDashChar = true → List.Chain' dashFree z →
      (∀ c t, z = c :: t → c ≠ '-') → (∀ c t, z.reverse = c :: t → c ≠ '-') →
      slugStart z = true) ∧
    (z.all slugDashChar = true → List.Chain' dashFree z →
      (∀ c t, z.reverse = c :: t → c ≠ '-') →
      slugBody z = true) := by
  induction z with
  | nil => exact ⟨fun h => absurd rfl h, fun _ _ _ => rfl⟩
  | cons c cs ih =>
    have hrev : ∀ (c' : Char) (t' : List Char), cs ≠ [] →
        (∀ a b, (c :: cs).reverse = a :: b → a ≠ '-') →
        cs.reverse = c' :: t' → c' ≠ '-' := by
      intro c' t' hne hlast he
      apply hlast c' (t' ++ [c])
      rw [List.reverse_cons, he]
      rfl
    constructor
    · intro _ hall hch hhd hlast
      have hcd : c ≠ '-' := hhd c cs rfl
      simp only [List.all_cons, Bool.and_eq_true] at hall
      have hcs : slugChar c = true := by
        have := hall.1
        simp only [slugDashChar, Bool.or_eq_true] at this
        rcases this with h | h
        · exact h
        · exact absurd (by simpa using h) hcd
      simp only [slugStart, hcs, Bool.true_and]
      cases hcse : cs with
      | nil => rfl
      | cons c' t' =>
        rw [← hcse]
        apply ih.2 hall.2 hch.tail
        intro a b hab
        exact hrev a b (by rw [hcse]; exact List.cons_ne_nil _ _) hlast hab
    · intro hall hch hlast
      simp only [List.all_cons, Bool.and_eq_true] at hall
      by_cases hcs : slugChar c = true
      · simp only [slugBody, hcs, if_pos rfl]
        cases hcse : cs with
        | nil => rfl
        | cons c' t' =>
          rw [← hcse]
          apply ih.2 hall.2 hch.tail
          intro a b hab
          exact hrev a b (by rw [hcse]; exact List.cons_ne_nil _ _) hlast hab
      · have hcd : c = '-' := by
          have := hall.1
          simp only [slugDashChar, Bool.or_eq_true] at this
          rcases this with h | h
          · exact absurd h hcs
          · simpa using h
        have hcs' : slugChar c = false := by revert hcs; cases slugChar c <;> simp
        subst hcd
        simp only [slugBody, hcs', Bool.false_eq_true, if_false]
        rw [Bool.and_eq_true]
        refine ⟨by simp, ?_⟩
        cases hcse : cs with
        | nil =>
          exfalso
          subst hcse
          exact hlast '-' [] (by simp) rfl
        | cons c' t' =>
          rw [← hcse]
          apply ih.1 (by rw [hcse]; exact List.cons_ne_nil _ _) hall.2 hch.tail
          · intro a b hab
            have h2 := List.chain'_cons.mp (show List.Chain' dashFree ('-' :: c' :: t')
              from by rw [← hcse]; exact hch)
            rw [hcse] at hab
            cases hab
            exact fun hcc => h2.1 ⟨rfl, hcc⟩
          · intro a b hab
            exact hrev a b (by rw [hcse]; exact List.cons_ne_nil _ _) hlast hab

theorem splitDash_ne (z : List Char) : splitDash z ≠ [] := by
  cases z with
  | nil => simp [splitDash]
  | cons c cs =>
    simp only [splitDash]
    cases splitDash cs with
    | nil => simp
    | cons seg segs => by_cases hc : c = '-' <;> simp [hc]

theorem splitDash_inv (z : List Char) :
    (slugStart z = true → ∀ seg ∈ splitDash z, seg ≠ [] ∧ seg.all slugChar = true) ∧
    (slugBody z = true → ∃ seg segs, splitDash z = seg :: segs ∧
      seg.all slugChar = true ∧ ∀ s' ∈ segs, s' ≠ [] ∧ s'.all slugChar = true) := by
  induction z with
  | nil =>
    refine ⟨fun h => by simp [slugStart] at h, fun _ => ⟨[], [], rfl, rfl, by simp⟩⟩
  | cons c cs ih =>
    constructor
    · intro hs seg hseg
      simp only [slugStart, Bool.and_eq_true] at hs
      obtain ⟨seg', segs', hsp, hall', hgood⟩ := ih.2 hs.2
      have hcd : c ≠ '-' := slugChar_ne_dash hs.1
      simp only [splitDash, hsp, if_neg (by simpa using hcd)] at hseg
      rcases List.mem_cons.mp hseg with h | h
      · subst h
        exact ⟨List.cons_ne_nil _ _, by simp [hall', hs.1]⟩
      · exact hgood seg h
    · intro hb
      simp only [slugBody] at hb
      by_cases hcs : slugChar c = true
      · rw [if_pos hcs] at hb
        obtain ⟨seg', segs', hsp, hall', hgood⟩ := ih.2 hb
        have hcd : c ≠ '-' := slugChar_ne_dash hcs
        refine ⟨c :: seg', segs', ?_, by simp [hall', hcs], hgood⟩
        simp only [splitDash, hsp, if_neg (by simpa using hcd)]
      · rw [if_neg hcs, Bool.and_eq_true] at hb
        have hcd : c = '-' := by simpa using hb.1
        have hstart := ih.1 hb.2
        obtain ⟨seg', segs', hsp⟩ :
            ∃ seg' segs', splitDash cs = seg' :: segs' := by
          cases hss : splitDash cs with
          | nil => exact absurd hss (splitDash_ne cs)
          | cons a b => exact ⟨a, b, rfl⟩
        refine ⟨[], seg' :: segs', ?_, rfl, ?_⟩
        · simp only [splitDash, hsp, if_pos (by simpa using hcd)]
        · intro s' hs'
          exact hstart s' (by rw [hsp]; exact hs')

theorem slugBody_append_dash (x rest' : List Char) (hx : x.all slugChar = true)
    (hr : slugStart rest' = true) : slugBody (x ++ '-' :: rest') = true := by
  induction x with
  | nil =>
    simp only [List.nil_append, slugBody]
    rw [if_neg (by simp [slugChar])]
    simp [hr]
  | cons c cs ih =>
    simp only [List.all_cons, Bool.and_eq_true] at hx
    simp only [List.cons_append, slugBody, hx.1, if_pos rfl]
    exact ih hx.2

theorem slugStart_append_dash (x rest' : List Char) (hne : x ≠ [])
    (hx : x.all slugChar = true) (hr : slugStart rest' = true) :
    slugStart (x ++ '-' :: rest') = true := by
  cases x with
  | nil => exact absurd rfl hne
  | cons c cs =>
    simp only [List.all_cons, Bool.and_eq_true] at hx
    simp only [List.cons_append, slugStart, hx.1, Bool.true_and]
    exact slugBody_append_dash cs rest' hx.2 hr

theorem slugStart_all (x : List Char) (hne : x ≠ []) (hx : x.all slugChar = true) :
    slugStart x = true := by
  cases x with
  | nil => exact absurd rfl hne
  | cons c cs =>
    simp only [List.all_cons, Bool.and_eq_true] at hx
    simp only [slugStart, hx.1, Bool.true_and]
    exact slugBody_all cs hx.2

theorem joinDash_slug (segs : List (List Char)) (hne : segs ≠ [])
    (hgood : ∀ seg ∈ segs, seg ≠ [] ∧ seg.all slugChar = true) :
    joinDash segs ≠ [] ∧ slugStart (joinDash segs) = true := by
  induction segs with
  | nil => exact absurd rfl hne
  | cons x segs' ih =>
    cases segs' with
    | nil =>
      obtain ⟨h1, h2⟩ := hgood x (by simp)
      exact ⟨h1, slugStart_all x h1 h2⟩
    | cons y rest =>
      obtain ⟨h1, h2⟩ := hgood x (by simp)
      have ihr := ih (by simp) (fun seg hseg => hgood seg (by simp [hseg]))
      refine ⟨?_, ?_⟩
      · simp only [joinDash]
        intro hcon
        rcases List.append_eq_nil.mp hcon with ⟨hx, _⟩
        exact h1 hx
      · simp only [joinDash]
        exact slugStart_append_dash x (joinDash (y :: rest)) h1 h2 ihr.2

theorem isSlug_ne {z : List Char} (h : isSlug z = true) : z ≠ [] := by
  intro he
  subst he
  simp [isSlug, slugStart] at h

theorem slugCore_shape (pyLower pyNFKD : List Char → List Char) (kw : List Char) :
    slugCore pyLower pyNFKD kw = [] ∨
      (slugCore pyLower pyNFKD kw ≠ [] ∧ isSlug (slugCore pyLower pyNFKD kw) = true) := by
  have base : ∀ x : List Char,
      collapseDashes (stripDashEnds (subNonAlnum x)) = [] ∨
        isSlug (collapseDashes (stripDashEnds (subNonAlnum x))) = true := by
    intro x
    obtain ⟨⟨ha, hc⟩, -⟩ := subNonAlnum_inv x
    obtain ⟨ha2, hc2, hh, hl⟩ := stripDashEnds_inv ha hc
    rw [(collapseDashes_id _).1 hc2]
    cases hz : stripDashEnds (subNonAlnum x) with
    | nil => exact Or.inl rfl
    | cons c t =>
      right
      rw [← hz]
      exact (slug_of_inv _).1 (by rw [hz]; exact List.cons_ne_nil _ _) ha2 hc2 hh hl
  simp only [slugCore]
  rcases base (pyNFKD (SUBS.foldl
      (fun acc pr => replaceAll (toL pr.1) (toL pr.2) acc) (pyLower kw))) with h0 | hslug
  · rw [h0]
    simp
  · split
    · right
      obtain ⟨seg, segs, hsp⟩ :
          ∃ seg segs, splitDash (collapseDashes (stripDashEnds (subNonAlnum
            (pyNFKD (SUBS.foldl (fun acc pr => replaceAll (toL pr.1) (toL pr.2) acc)
              (pyLower kw)))))) = seg :: segs := by
        cases hss : splitDash _ with
        | nil => exact absurd hss (splitDash_ne _)
        | cons a b => exact ⟨a, b, rfl⟩
      have hgood := (splitDash_inv _).1 hslug
      have hj := joinDash_slug ((seg :: segs).take 5) (by simp)
        (fun s hs => hgood s (by rw [hsp]; exact List.take_subset 5 _ hs))
      rw [hsp]
      exact ⟨hj.1, hj.2⟩
    · exact Or.inr ⟨isSlug_ne hslug, hslug⟩

/-- C7.  `generate_permalink` is total and never returns the empty string:
for every input (the empty string included) and arbitrary `str.lower` /
NFKD behaviour, the result either matches `^[a-z0-9]+(-[a-z0-9]+)*$` or is
the timestamp fallback `post-<digits>`. -/
theorem claim_C7 (pyLower pyNFKD : List Char → List Char) (ts : Nat) (kw : List Char) :
    generate_permalink pyLower pyNFKD ts kw ≠ [] ∧
    (isSlug (generate_permalink pyLower pyNFKD ts kw) = true ∨
      generate_permalink pyLower pyNFKD ts kw = toL "post-" ++ (Nat.repr ts).toList) := by
  rcases slugCore_shape pyLower pyNFKD kw with h | ⟨hne, hslug⟩
  · simp only [generate_permalink, h, if_pos rfl]
    exact ⟨by simp [toL], Or.inr rfl⟩
  · simp only [generate_permalink, if_neg hne]
    exact ⟨hne, Or.inl hslug⟩

/-! ### Toolkit: the tag scanners of `simplify_html` -/

theorem takeWhile_append_all {l l' : List Char} {p : Char → Bool} (h : l.all p = true) :
    (l ++ l').takeWhile p = l ++ l'.takeWhile p := by
  induction l with
  | nil => simp
  | cons c cs ih =>
    simp only [List.all_cons, Bool.and_eq_true] at h
    simp [List.takeWhile_cons, h.1, ih h.2]

theorem dropWhile_append_all {l l' : List Char} {p : Char → Bool} (h : l.all p = true) :
    (l ++ l').dropWhile p = l'.dropWhile p := by
  induction l with
  | nil => simp
  | cons c cs ih =>
    simp only [List.all_cons, Bool.and_eq_true] at h
    simp [List.dropWhile_cons, h.1, ih h.2]

theorem takeWhile_head_false {l : List Char} {p : Char → Bool}
    (h : ∀ c t, l = c :: t → p c = false) : l.takeWhile p = [] := by
  cases l with
  | nil => rfl
  | cons c t => simp [List.takeWhile_cons, h c t rfl]

theorem dropWhile_head_false {l : List Char} {p : Char → Bool}
    (h : ∀ c t, l = c :: t → p c = false) : l.dropWhile p = l := by
  cases l with
  | nil => rfl
  | cons c t => simp [List.dropWhile_cons, h c t rfl]

theorem length_dropWhile_le (l : List Char) (p : Char → Bool) :
    (l.dropWhile p).length ≤ l.length := by
  induction l with
  | nil => simp
  | cons c t ih =>
    simp only [List.dropWhile_cons]
    split
    · simp only [List.length_cons]; omega
    · simp


theorem slashSkip_length (rest : List Char) : (slashSkip rest).length ≤ rest.length := by
  cases rest with
  | nil => simp [slashSkip]
  | cons c t =>
    simp only [slashSkip]
    split <;> simp

theorem parseTag_length {rest n after : List Char}
    (h : parseTag rest = some (n, after)) : after.length < rest.length := by
  simp only [parseTag] at h
  split at h
  · exact absurd h (by simp)
  · rename_i hname
    cases hd : ((slashSkip rest).dropWhile wordChar).dropWhile notGt with
    | nil => rw [hd] at h; exact absurd h (by simp)
    | cons g after' =>
      rw [hd] at h
      simp only [Option.some.injEq, Prod.mk.injEq] at h
      have h1 : after'.length + 1 ≤ ((slashSkip rest).dropWhile wordChar).length := by
        have := length_dropWhile_le ((slashSkip rest).dropWhile wordChar) notGt
        rw [hd] at this
        simpa using this
      have h2 := length_dropWhile_le (slashSkip rest) wordChar
      have h3 := slashSkip_length rest
      have h4 : (slashSkip rest).takeWhile wordChar ≠ [] := by
        intro hcon
        rw [hcon] at hname
        simp at hname
      have h5 : 1 ≤ (slashSkip rest).length := by
        cases hsl : slashSkip rest with
        | nil => rw [hsl] at h4; simp at h4
        | cons a b => simp
      have h6 : (slashSkip rest).length ≤ rest.length := slashSkip_length rest
      -- name nonempty means dropWhile wordChar lost at least one char
      have h7 : ((slashSkip rest).dropWhile wordChar).length + 1 ≤ (slashSkip rest).length := by
        cases hsl : slashSkip rest with
        | nil => rw [hsl] at h4; simp at h4
        | cons a b =>
          have : wordChar a = true := by
            rw [hsl] at h4
            by_contra hwa
            have hwa' : wordChar a = false := by revert hwa; cases wordChar a <;> simp
            simp [List.takeWhile_cons, hwa'] at h4
          have hlb := length_dropWhile_le b wordChar
          simp only [List.dropWhile_cons, this, eq_self_iff_true, if_true,
            List.length_cons]
          omega
      rw [← h.2]
      omega

theorem remParse_length {tag rest after : List Char}
    (h : remParse tag rest = some after) : after.length ≤ rest.length := by
  simp only [remParse] at h
  split at h
  · cases hd : ((slashSkip rest).drop tag.length).dropWhile notGt with
    | nil => rw [hd] at h; exact absurd h (by simp)
    | cons g after' =>
      rw [hd] at h
      simp only [Option.some.injEq] at h
      have h1 : after'.length + 1 ≤ ((slashSkip rest).drop tag.length).length := by
        have := length_dropWhile_le ((slashSkip rest).drop tag.length) notGt
        rw [hd] at this
        simpa using this
      have h2 : ((slashSkip rest).drop tag.length).length ≤ (slashSkip rest).length := by
        simp only [List.length_drop]
        omega
      have h3 := slashSkip_length rest
      rw [← h]
      omega
  · exact Option.noConfusion h

theorem brTail_length {l after : List Char} (h : brTail l = some after) :
    after.length < l.length := by
  cases l with
  | nil => exact Option.noConfusion h
  | cons c t =>
    by_cases hc : c = '>'
    · rw [show brTail (c :: t) = some t from by simp [brTail, hc]] at h
      cases h
      simp
    · by_cases hs : c = '/'
      · cases t with
        | nil =>
          rw [show brTail (c :: ([] : List Char)) = none from by simp [brTail, hc, hs]] at h
          exact Option.noConfusion h
        | cons c2 t2 =>
          by_cases hc2 : c2 = '>'
          · rw [show brTail (c :: c2 :: t2) = some t2 from by
              simp [brTail, hc, hs, hc2]] at h
            cases h
            simp only [List.length_cons]
            omega
          · rw [show brTail (c :: c2 :: t2) = none from by
              simp [brTail, hc, hs, hc2]] at h
            exact Option.noConfusion h
      · rw [show brTail (c :: t) = none from by simp [brTail, hc, hs]] at h
        exact Option.noConfusion h

theorem brParse_length {rest after : List Char} (h : brParse rest = some after) :
    after.length < rest.length := by
  simp only [brParse] at h
  split at h
  · rename_i hci
    have hlen2 : 2 ≤ rest.length := by
      have := ciStarts_length_le hci
      simpa using this
    have h1 := brTail_length h
    have h2 := length_dropWhile_le (rest.drop 2) pyIsSpace
    simp only [List.length_drop] at h2
    omega
  · exact absurd h (by simp)

theorem scanTagsF_congr :
    ∀ f₁ f₂ (s : List Char), s.length < f₁ → s.length < f₂ →
      scanTagsF f₁ s = scanTagsF f₂ s := by
  intro f₁
  induction f₁ with
  | zero => intro f₂ s h1 h2; omega
  | succ f ih =>
    intro f₂ s h1 h2
    cases f₂ with
    | zero => omega
    | succ f' =>
      cases s with
      | nil => rfl
      | cons c rest =>
        simp only [List.length_cons] at h1 h2
        by_cases hc : c = '<'
        · cases hp : parseTag rest with
          | none =>
            simp only [scanTagsF, if_pos hc, hp]
            exact ih f' rest (by omega) (by omega)
          | some pr =>
            rcases pr with ⟨n, after⟩
            have hl := parseTag_length hp
            simp only [scanTagsF, if_pos hc, hp]
            rw [ih f' after (by omega) (by omega)]
        · simp only [scanTagsF, if_neg hc]
          exact ih f' rest (by omega) (by omega)

theorem scanTags_nil : scanTags [] = [] := rfl

theorem scanTags_cons_other {c : Char} {rest : List Char} (hc : c ≠ '<') :
    scanTags (c :: rest) = scanTags rest := by
  simp only [scanTags, scanTagsF, if_neg hc]
  exact scanTagsF_congr (c :: rest).length (rest.length + 1) rest (by simp) (by omega)

theorem scanTags_cons_some {rest n after : List Char}
    (hp : parseTag rest = some (n, after)) :
    scanTags ('<' :: rest) = n :: scanTags after := by
  have hl := parseTag_length hp
  simp only [scanTags, scanTagsF, hp, eq_self_iff_true, if_true]
  rw [scanTagsF_congr ('<' :: rest).length (after.length + 1) after (by simp; omega)
    (by omega)]

theorem scanTags_cons_none {rest : List Char} (hp : parseTag rest = none) :
    scanTags ('<' :: rest) = scanTags rest := by
  simp only [scanTags, scanTagsF, hp, eq_self_iff_true, if_true]
  exact scanTagsF_congr ('<' :: rest).length (rest.length + 1) rest (by simp) (by omega)

theorem removeTagF_congr (tag : List Char) :
    ∀ f₁ f₂ (s : List Char), s.length < f₁ → s.length < f₂ →
      removeTagF tag f₁ s = removeTagF tag f₂ s := by
  intro f₁
  induction f₁ with
  | zero => intro f₂ s h1 h2; omega
  | succ f ih =>
    intro f₂ s h1 h2
    cases f₂ with
    | zero => omega
    | succ f' =>
      cases s with
      | nil => rfl
      | cons c rest =>
        simp only [List.length_cons] at h1 h2
        by_cases hc : c = '<'
        · cases hp : remParse tag rest with
          | none =>
            simp only [removeTagF, if_pos hc, hp]
            rw [ih f' rest (by omega) (by omega)]
          | some after =>
            have hl := remParse_length hp
            simp only [removeTagF, if_pos hc, hp]
            exact ih f' after (by omega) (by omega)
        · simp only [removeTagF, if_neg hc]
          rw [ih f' rest (by omega) (by omega)]

theorem removeTag_nil (tag : List Char) : removeTag tag [] = [] := rfl

theorem removeTag_cons_other {c : Char} {rest : List Char} (tag : List Char)
    (hc : c ≠ '<') : removeTag tag (c :: rest) = c :: removeTag tag rest := by
  simp only [removeTag, removeTagF, if_neg hc]
  rw [removeTagF_congr tag (c :: rest).length (rest.length + 1) rest (by simp) (by omega)]

theorem removeTag_cons_some {tag rest after : List Char}
    (hp : remParse tag rest = some after) :
    removeTag tag ('<' :: rest) = removeTag tag after := by
  have hl := remParse_length hp
  simp only [removeTag, removeTagF, hp, eq_self_iff_true, if_true]
  exact removeTagF_congr tag ('<' :: rest).length (after.length + 1) after
    (by simp; omega) (by omega)

theorem removeTag_cons_none {tag rest : List Char} (hp : remParse tag rest = none) :
    removeTag tag ('<' :: rest) = '<' :: removeTag tag rest := by
  simp only [removeTag, removeTagF, hp, eq_self_iff_true, if_true]
  rw [removeTagF_congr tag ('<' :: rest).length (rest.length + 1) rest (by simp)
    (by omega)]

theorem removeBrF_congr :
    ∀ f₁ f₂ (s : List Char), s.length < f₁ → s.length < f₂ →
      removeBrF f₁ s = removeBrF f₂ s := by
  intro f₁
  induction f₁ with
  | zero => intro f₂ s h1 h2; omega
  | succ f ih =>
    intro f₂ s h1 h2
    cases f₂ with
    | zero => omega
    | succ f' =>
      cases s with
      | nil => rfl
      | cons c rest =>
        simp only [List.length_cons] at h1 h2
        by_cases hc : c = '<'
        · cases hp : brParse rest with
          | none =>
            simp only [removeBrF, if_pos hc, hp]
            rw [ih f' rest (by omega) (by omega)]
          | some after =>
            have hl := brParse_length hp
            simp only [removeBrF, if_pos hc, hp]
            exact ih f' after (by omega) (by omega)
        · simp only [removeBrF, if_neg hc]
          rw [ih f' rest (by omega) (by omega)]

theorem removeBr_nil : removeBr [] = [] := rfl

theorem removeBr_cons_other {c : Char} {rest : List Char} (hc : c ≠ '<') :
    removeBr (c :: rest) = c :: removeBr rest := by
  simp only [removeBr, removeBrF, if_neg hc]
  rw [removeBrF_congr (c :: rest).length (rest.length + 1) rest (by simp) (by omega)]

theorem removeBr_cons_some {rest after : List Char} (hp : brParse rest = some after) :
    removeBr ('<' :: rest) = removeBr after := by
  have hl := brParse_length hp
  simp only [removeBr, removeBrF, hp, eq_self_iff_true, if_true]
  exact removeBrF_congr ('<' :: rest).length (after.length + 1) after (by simp; omega)
    (by omega)

theorem removeBr_cons_none {rest : List Char} (hp : brParse rest = none) :
    removeBr ('<' :: rest) = '<' :: removeBr rest := by
  simp only [removeBr, removeBrF, hp, eq_self_iff_true, if_true]
  rw [removeBrF_congr ('<' :: rest).length (rest.length + 1) rest (by simp) (by omega)]

theorem lowAscii_wordChar (c : Char) : wordChar (lowAscii c) = wordChar c := by
  unfold lowAscii
  split <;> rfl

theorem wordChar_ne_gt {c : Char} (h : wordChar c = true) : c ≠ '>' := by
  intro he
  subst he
  exact absurd h (by decide)

theorem wordChar_ne_lt {c : Char} (h : wordChar c = true) : c ≠ '<' := by
  intro he
  subst he
  exact absurd h (by decide)

theorem wordChar_ne_slash {c : Char} (h : wordChar c = true) : c ≠ '/' := by
  intro he
  subst he
  exact absurd h (by decide)

theorem wordChar_notGt {c : Char} (h : wordChar c = true) : notGt c = true := by
  simp only [notGt, Bool.not_eq_true']
  exact decide_eq_false (wordChar_ne_gt h)

theorem wordChar_not_space {c : Char} (h : wordChar c = true) : pyIsSpace c = false := by
  cases hp : pyIsSpace c with
  | false => rfl
  | true =>
    exfalso
    simp only [pyIsSpace, Bool.or_eq_true, decide_eq_true_eq] at hp
    rcases hp with ((((h1 | h1) | h1) | h1) | h1) | h1 <;> (subst h1; exact absurd h (by decide))

theorem ciEq_clash {p c : Char} (hp : wordChar p = true) (hc : wordChar c = false) :
    (lowAscii p == lowAscii c) = false := by
  cases hb : lowAscii p == lowAscii c with
  | false => rfl
  | true =>
    exfalso
    have he : lowAscii p = lowAscii c := by simpa using hb
    have h1 := lowAscii_wordChar p
    have h2 := lowAscii_wordChar c
    rw [he, h2] at h1
    rw [hp, hc] at h1
    cases h1

theorem ciStarts_refl (n : List Char) : ciStarts n n = true := by
  induction n with
  | nil => rfl
  | cons c cs ih => simp [ciStarts, ih]

theorem ciStarts_long_append {tag n u : List Char} (htw : tag.all wordChar = true)
    (hu : ∀ c t, u = c :: t → wordChar c = false) (hlen : n.length < tag.length) :
    ciStarts tag (n ++ u) = false := by
  induction n generalizing tag with
  | nil =>
    cases tag with
    | nil => simp at hlen
    | cons th tt =>
      simp only [List.all_cons, Bool.and_eq_true] at htw
      cases u with
      | nil => rfl
      | cons c t =>
        simp only [List.nil_append, ciStarts]
        rw [ciEq_clash htw.1 (hu c t rfl)]
        rfl
  | cons nh nt ih =>
    cases tag with
    | nil => simp at hlen
    | cons th tt =>
      simp only [List.all_cons, Bool.and_eq_true] at htw
      simp only [List.cons_append, ciStarts, List.append_eq]
      rw [ih htw.2 (by simp at hlen; omega)]
      simp

theorem dropWhile_append_nil {x u : List Char} {p : Char → Bool}
    (h : x.dropWhile p = []) : (x ++ u).dropWhile p = u.dropWhile p := by
  induction x with
  | nil => simp
  | cons c cs ih =>
    by_cases hpc : p c = true
    · rw [List.dropWhile_cons, if_pos hpc] at h
      rw [List.cons_append, List.dropWhile_cons, if_pos hpc]
      exact ih h
    · rw [List.dropWhile_cons, if_neg hpc] at h
      exact absurd h (by simp)

theorem dropWhile_append_cons {x u : List Char} {p : Char → Bool} {c : Char}
    {t : List Char} (h : x.dropWhile p = c :: t) :
    (x ++ u).dropWhile p = c :: (t ++ u) := by
  induction x with
  | nil => simp at h
  | cons d ds ih =>
    by_cases hpd : p d = true
    · rw [List.dropWhile_cons, if_pos hpd] at h
      rw [List.cons_append, List.dropWhile_cons, if_pos hpd]
      exact ih h
    · rw [List.dropWhile_cons, if_neg hpd] at h
      cases h
      rw [List.cons_append, List.dropWhile_cons, if_neg hpd]

theorem all_drop {x : List Char} {p : Char → Bool} (h : x.all p = true) (k : Nat) :
    (x.drop k).all p = true := by
  apply List.all_eq_true.mpr
  intro c hc
  exact List.all_eq_true.mp h c (List.drop_subset k x hc)

theorem all_imp_notGt {l : List Char} (h : l.all wordChar = true) :
    l.all notGt = true :=
  List.all_eq_true.mpr fun c hc => wordChar_notGt (List.all_eq_true.mp h c hc)

theorem headNonWord {a : List Char} (hah : ∀ c t, a = c :: t → wordChar c = false)
    {s : List Char} : ∀ c t, a ++ ('>' :: s) = c :: t → wordChar c = false := by
  intro c t hct
  cases a with
  | nil =>
    simp only [List.nil_append, List.cons.injEq] at hct
    rw [← hct.1]
    decide
  | cons a1 a2 =>
    simp only [List.cons_append, List.cons.injEq] at hct
    rw [← hct.1]
    exact hah a1 a2 rfl

theorem slashSkip_inner {sl : Bool} {n X : List Char} (hn : n ≠ [])
    (hnw : n.all wordChar = true) :
    slashSkip ((if sl then ['/'] else []) ++ (n ++ X)) = n ++ X := by
  cases sl with
  | true =>
    have e : ((if (true : Bool) then ['/'] else []) ++ (n ++ X)) = '/' :: (n ++ X) := by
      simp
    rw [e]
    simp [slashSkip]
  | false =>
    have e : ((if (false : Bool) then ['/'] else ([] : List Char)) ++ (n ++ X))
        = n ++ X := by simp
    rw [e]
    cases n with
    | nil => exact absurd rfl hn
    | cons nh nt =>
      simp only [List.all_cons, Bool.and_eq_true] at hnw
      simp only [List.cons_append, slashSkip]
      rw [if_neg (wordChar_ne_slash hnw.1)]

theorem parseTag_token {sl : Bool} {n a : List Char} (hn : n ≠ [])
    (hnw : n.all wordChar = true) (hang : a.all notGt = true)
    (hah : ∀ c t, a = c :: t → wordChar c = false) (s : List Char) :
    parseTag ((if sl then ['/'] else []) ++ (n ++ (a ++ ('>' :: s)))) = some (n, s) := by
  have hss := @slashSkip_inner sl n (a ++ ('>' :: s)) hn hnw
  simp only [parseTag, hss]
  have hname : (n ++ (a ++ '>' :: s)).takeWhile wordChar = n := by
    rw [takeWhile_append_all hnw, takeWhile_head_false (headNonWord hah), List.append_nil]
  have hdw : (n ++ (a ++ '>' :: s)).dropWhile wordChar = a ++ '>' :: s := by
    rw [dropWhile_append_all hnw]
    exact dropWhile_head_false (headNonWord hah)
  rw [hname, hdw]
  rw [if_neg (by simp [List.isEmpty_iff, hn])]
  have hng : (a ++ '>' :: s).dropWhile notGt = '>' :: s := by
    rw [dropWhile_append_all hang, List.dropWhile_cons]
    rw [if_neg (by decide)]
  rw [hng]

theorem remParse_token {sl : Bool} {tag n a : List Char} (hn : n ≠ [])
    (hnw : n.all wordChar = true) (hang : a.all notGt = true)
    (hah : ∀ c t, a = c :: t → wordChar c = false)
    (htw : tag.all wordChar = true) (s : List Char) :
    remParse tag ((if sl then ['/'] else []) ++ (n ++ (a ++ ('>' :: s))))
      = if ciStarts tag n = true then some s else none := by
  have hss := @slashSkip_inner sl n (a ++ ('>' :: s)) hn hnw
  simp only [remParse, hss]
  by_cases hci : ciStarts tag n = true
  · have hlen := ciStarts_length_le hci
    have h1 : ciStarts tag (n ++ (a ++ '>' :: s)) = true := by
      rw [ciStarts_of_append_left hlen]
      exact hci
    rw [if_pos h1, if_pos hci]
    rw [List.drop_append_of_le_length hlen]
    have h2 : (n.drop tag.length).all notGt = true := all_imp_notGt (all_drop hnw _)
    rw [dropWhile_append_all h2, dropWhile_append_all hang, List.dropWhile_cons]
    rw [if_neg (by decide)]
  · have hci' : ciStarts tag n = false := by
      revert hci
      cases ciStarts tag n <;> simp
    have h1 : ciStarts tag (n ++ (a ++ '>' :: s)) = false := by
      rcases le_or_lt tag.length n.length with hle | hlt
      · rw [ciStarts_of_append_left hle]
        exact hci'
      · exact ciStarts_long_append htw (headNonWord hah) hlt
    rw [if_neg (by simp [h1]), if_neg hci]

theorem toL_br : toL "br" = ['b', 'r'] := rfl

theorem map_low_ne_br_of_len {n : List Char} (h : n.length ≠ 2) :
    (n.map lowAscii == toL "br") = false := by
  cases hb : n.map lowAscii == toL "br" with
  | false => rfl
  | true =>
    exfalso
    have he : n.map lowAscii = toL "br" := by simpa using hb
    have := congrArg List.length he
    simp only [List.length_map, toL_br, List.length_cons, List.length_nil] at this
    omega

theorem mem_dropWhile_sub {a : List Char} {p : Char → Bool} {c : Char}
    (h : c ∈ a.dropWhile p) : c ∈ a :=
  (List.dropWhile_suffix p).subset h

theorem brParse_token {sl : Bool} {n a : List Char} (hn : n ≠ [])
    (hnw : n.all wordChar = true)
    (hag : a.all (fun c => c ≠ '<' && c ≠ '>') = true)
    (hah : ∀ c t, a = c :: t → wordChar c = false) (s : List Char) :
    brParse ((if sl then ['/'] else []) ++ (n ++ (a ++ ('>' :: s))))
      = if isBrItem (.tag sl n a) = true then some s else none := by
  cases sl with
  | true =>
    have e : ((if (true : Bool) then ['/'] else []) ++ (n ++ (a ++ ('>' :: s))))
        = '/' :: (n ++ (a ++ ('>' :: s))) := by simp
    rw [e]
    have hci : ciStarts (toL "br") ('/' :: (n ++ (a ++ ('>' :: s)))) = false := by
      rw [toL_br]
      simp only [ciStarts]
      rw [show (lowAscii 'b' == lowAscii '/') = false from by decide]
      rfl
    simp only [brParse, hci, Bool.false_eq_true, if_false]
    rw [if_neg (by simp [isBrItem])]
  | false =>
    have e : ((if (false : Bool) then ['/'] else []) ++ (n ++ (a ++ ('>' :: s))))
        = n ++ (a ++ ('>' :: s)) := by simp
    rw [e]
    cases n with
    | nil => exact absurd rfl hn
    | cons n1 nt =>
      simp only [List.all_cons, Bool.and_eq_true] at hnw
      cases nt with
      | nil =>
        have hci : ciStarts (toL "br") ((n1 :: []) ++ (a ++ ('>' :: s))) = false := by
          rw [toL_br]
          simp only [List.cons_append, List.nil_append, ciStarts, List.append_eq]
          have h2 : ciStarts ['r'] (a ++ ('>' :: s)) = false := by
            have := @ciStarts_long_append ['r'] ([] : List Char)
              (a ++ ('>' :: s)) (by decide) (headNonWord hah) (by simp)
            simpa using this
          rw [h2]
          simp
        simp only [brParse, hci, Bool.false_eq_true, if_false]
        have hbritem : isBrItem (.tag false (n1 :: []) a) = false := by
          simp only [isBrItem, map_low_ne_br_of_len (n := n1 :: []) (by simp)]
          simp
        rw [if_neg (by simp [hbritem])]
      | cons n2 nrest =>
        simp only [List.all_cons, Bool.and_eq_true] at hnw
        by_cases hb1 : (lowAscii 'b' == lowAscii n1) = true
            ∧ (lowAscii 'r' == lowAscii n2) = true
        · have hci : ciStarts (toL "br")
              ((n1 :: n2 :: nrest) ++ (a ++ ('>' :: s))) = true := by
            rw [toL_br]
            simp only [List.cons_append, ciStarts, hb1.1, hb1.2]
            rfl
          simp only [brParse, hci, if_pos rfl, eq_self_iff_true, if_true]
          have hdrop : (((n1 :: n2 :: nrest) ++ (a ++ ('>' :: s)))).drop 2
              = nrest ++ (a ++ ('>' :: s)) := by
            simp
          rw [hdrop]
          cases nrest with
          | cons n3 nr3 =>
            have hw3 : wordChar n3 = true := by
              have := hnw.2.2
              simp only [List.all_cons, Bool.and_eq_true] at this
              exact this.1
            have hds : ((n3 :: nr3) ++ (a ++ ('>' :: s))).dropWhile pyIsSpace
                = n3 :: (nr3 ++ (a ++ ('>' :: s))) := by
              simp only [List.cons_append, List.dropWhile_cons,
                wordChar_not_space hw3, Bool.false_eq_true, if_false]
            rw [hds]
            have hbt : brTail (n3 :: (nr3 ++ (a ++ ('>' :: s)))) = none := by
              simp only [brTail]
              rw [if_neg (wordChar_ne_gt hw3), if_neg (wordChar_ne_slash hw3)]
            rw [hbt]
            have hbritem : isBrItem (.tag false (n1 :: n2 :: n3 :: nr3) a) = false := by
              simp only [isBrItem,
                map_low_ne_br_of_len (n := n1 :: n2 :: n3 :: nr3) (by simp)]
              simp
            rw [if_neg (by simp [hbritem])]
          | nil =>
            have hmapbr : ((n1 :: n2 :: []).map lowAscii == toL "br") = true := by
              rw [toL_br]
              have e1 : lowAscii n1 = 'b' := by
                have h' : lowAscii 'b' = lowAscii n1 := by simpa using hb1.1
                rw [← h']
                rfl
              have e2 : lowAscii n2 = 'r' := by
                have h' : lowAscii 'r' = lowAscii n2 := by simpa using hb1.2
                rw [← h']
                rfl
              simp [e1, e2]
            have hnil : ((n1 :: n2 :: ([] : List Char)) ++ (a ++ ('>' :: s))).drop 2
                = a ++ ('>' :: s) := by simp
            simp only [List.nil_append]
            cases ha' : a.dropWhile pyIsSpace with
            | nil =>
              rw [dropWhile_append_nil ha']
              have hgs : (('>' :: s) : List Char).dropWhile pyIsSpace = '>' :: s := by
                rw [List.dropWhile_cons, if_neg (by decide)]
              rw [hgs]
              have hbt : brTail ('>' :: s) = some s := by
                simp only [brTail]
                simp
              rw [hbt]
              have hbritem : isBrItem (.tag false (n1 :: n2 :: []) a) = true := by
                simp only [isBrItem, hmapbr, ha']
                simp
              rw [if_pos hbritem]
            | cons c t =>
              rw [dropWhile_append_cons ha']
              have hcmem : c ∈ a := mem_dropWhile_sub (ha' ▸ List.mem_cons_self c t)
              have hcgt : c ≠ '>' := by
                have := List.all_eq_true.mp hag c hcmem
                simp only [Bool.and_eq_true, decide_eq_true_eq] at this
                exact this.2
              by_cases hsl2 : c = '/'
              · subst hsl2
                cases t with
                | nil =>
                  have hbt : brTail ('/' :: (([] : List Char) ++ ('>' :: s)))
                      = some s := by
                    simp only [List.nil_append, brTail]
                    simp
                  rw [hbt]
                  have hbritem : isBrItem (.tag false (n1 :: n2 :: []) a) = true := by
                    simp only [isBrItem, hmapbr, ha']
                    simp
                  rw [if_pos hbritem]
                | cons c2 t2 =>
                  have hc2mem : c2 ∈ a := mem_dropWhile_sub
                    (ha' ▸ (by simp : c2 ∈ '/' :: c2 :: t2))
                  have hc2gt : c2 ≠ '>' := by
                    have := List.all_eq_true.mp hag c2 hc2mem
                    simp only [Bool.and_eq_true, decide_eq_true_eq] at this
                    exact this.2
                  have hbt : brTail ('/' :: ((c2 :: t2) ++ ('>' :: s))) = none := by
                    simp only [List.cons_append, brTail]
                    simp [hc2gt]
                  rw [hbt]
                  rw [if_neg (by simp [isBrItem, hmapbr, ha'])]
              · have hbt : brTail (c :: (t ++ ('>' :: s))) = none := by
                  simp only [brTail]
                  rw [if_neg hcgt, if_neg hsl2]
                rw [hbt]
                have hbritem : isBrItem (.tag false (n1 :: n2 :: []) a) = false := by
                  simp only [isBrItem, ha']
                  simp [hsl2]
                rw [if_neg (by simp [hbritem])]
        · have hci : ciStarts (toL "br")
              ((n1 :: n2 :: nrest) ++ (a ++ ('>' :: s))) = false := by
            rw [toL_br]
            simp only [List.cons_append, ciStarts]
            rcases Decidable.not_and_iff_or_not.mp hb1 with hx | hx
            · rw [show (lowAscii 'b' == lowAscii n1) = false from by
                revert hx; cases lowAscii 'b' == lowAscii n1 <;> simp]
              rfl
            · rw [show (lowAscii 'r' == lowAscii n2) = false from by
                revert hx; cases lowAscii 'r' == lowAscii n2 <;> simp]
              simp
          simp only [brParse, hci, Bool.false_eq_true, if_false]
          have hbritem : isBrItem (.tag false (n1 :: n2 :: nrest) a) = false := by
            simp only [isBrItem]
            have hmp : ((n1 :: n2 :: nrest).map lowAscii == toL "br") = false := by
              cases hbm : (n1 :: n2 :: nrest).map lowAscii == toL "br" with
              | false => rfl
              | true =>
                exfalso
                have he : (n1 :: n2 :: nrest).map lowAscii = toL "br" := by
                  simpa using hbm
                rw [toL_br] at he
                simp only [List.map_cons, List.cons.injEq] at he
                apply hb1
                constructor
                · rw [show lowAscii 'b' = 'b' from rfl, he.1]
                  simp
                · rw [show lowAscii 'r' = 'r' from rfl, he.2.1]
                  simp
            rw [hmp]
            simp
          rw [if_neg (by simp [hbritem])]

theorem okText_mem {t : List Char} (h : okText t = true) :
    ∀ c ∈ t, c ≠ '<' ∧ c ≠ '>' := by
  intro c hc
  have := List.all_eq_true.mp h c hc
  simp only [Bool.and_eq_true, decide_eq_true_eq] at this
  exact this

theorem scanTags_text {t s : List Char} (h : ∀ c ∈ t, c ≠ '<') :
    scanTags (t ++ s) = scanTags s := by
  induction t with
  | nil => simp
  | cons c cs ih =>
    rw [List.cons_append, scanTags_cons_other (h c (by simp))]
    exact ih fun d hd => h d (by simp [hd])

theorem removeTag_text {tag t s : List Char} (h : ∀ c ∈ t, c ≠ '<') :
    removeTag tag (t ++ s) = t ++ removeTag tag s := by
  induction t with
  | nil => simp
  | cons c cs ih =>
    rw [List.cons_append, removeTag_cons_other tag (h c (by simp))]
    rw [ih fun d hd => h d (by simp [hd])]
    rfl

theorem removeBr_text {t s : List Char} (h : ∀ c ∈ t, c ≠ '<') :
    removeBr (t ++ s) = t ++ removeBr s := by
  induction t with
  | nil => simp
  | cons c cs ih =>
    rw [List.cons_append, removeBr_cons_other (h c (by simp))]
    rw [ih fun d hd => h d (by simp [hd])]
    rfl

theorem matchBrAt_not_lt {c : Char} {r : List Char} (hc : c ≠ '<') :
    matchBrAt (c :: r) = false := by
  simp [matchBrAt, hc]

theorem anySuffix_text {t s : List Char} (h : ∀ c ∈ t, c ≠ '<') :
    anySuffix matchBrAt (t ++ s) = anySuffix matchBrAt s := by
  induction t with
  | nil => simp
  | cons c cs ih =>
    rw [List.cons_append]
    simp only [anySuffix]
    rw [matchBrAt_not_lt (h c (by simp))]
    simp only [Bool.false_or]
    exact ih fun d hd => h d (by simp [hd])

theorem wfTag_parts {sl : Bool} {n a : List Char} (h : wfItem (.tag sl n a) = true) :
    n ≠ [] ∧ n.all wordChar = true ∧
      a.all (fun c => c ≠ '<' && c ≠ '>') = true ∧
      (∀ c t, a = c :: t → wordChar c = false) := by
  simp only [wfItem, Bool.and_eq_true] at h
  obtain ⟨⟨⟨h1, h2⟩, h3⟩, h4⟩ := h
  refine ⟨?_, h2, h3, ?_⟩
  · intro he
    subst he
    simp at h1
  · intro c t he
    subst he
    simpa using h4

theorem a_all_notGt {a : List Char} (h : a.all (fun c => c ≠ '<' && c ≠ '>') = true) :
    a.all notGt = true := by
  apply List.all_eq_true.mpr
  intro c hc
  have := List.all_eq_true.mp h c hc
  simp only [Bool.and_eq_true, decide_eq_true_eq] at this
  simp only [notGt, Bool.not_eq_true']
  exact decide_eq_false this.2

theorem renderF_nil : renderF [] = [] := rfl

theorem renderF_cons (it : HItem) (l : List HItem) :
    renderF (it :: l) = renderItem it ++ renderF l := by
  simp [renderF]

theorem renderTag_append (sl : Bool) (n a s : List Char) :
    renderItem (.tag sl n a) ++ s
      = '<' :: ((if sl then ['/'] else []) ++ (n ++ (a ++ ('>' :: s)))) := by
  simp [renderItem, List.append_assoc]

theorem bodyflat_no_lt {sl : Bool} {n a : List Char} (hnw : n.all wordChar = true)
    (hag : a.all (fun c => c ≠ '<' && c ≠ '>') = true) :
    ∀ c ∈ (if sl then ['/'] else []) ++ (n ++ (a ++ ['>'])), c ≠ '<' := by
  intro c hc
  simp only [List.mem_append] at hc
  rcases hc with hc | hc | hc | hc
  · cases sl with
    | true => simp at hc; subst hc; decide
    | false => simp at hc
  · exact wordChar_ne_lt (List.all_eq_true.mp hnw c hc)
  · have := List.all_eq_true.mp hag c hc
    simp only [Bool.and_eq_true, decide_eq_true_eq] at this
    exact this.1
  · simp at hc; subst hc; decide

theorem inner_split (sl : Bool) (n a s : List Char) :
    (if sl then ['/'] else []) ++ (n ++ (a ++ ('>' :: s)))
      = ((if sl then ['/'] else []) ++ (n ++ (a ++ ['>']))) ++ s := by
  simp [List.append_assoc]

theorem scanTags_renderF : ∀ l : List HItem, wfFrag l = true →
    scanTags (renderF l) = tagNames l := by
  intro l
  induction l with
  | nil => intro _; rfl
  | cons it l ih =>
    intro hwf
    simp only [wfFrag, List.all_cons, Bool.and_eq_true] at hwf
    have ihl := ih hwf.2
    cases it with
    | text t =>
      rw [renderF_cons]
      simp only [renderItem]
      rw [scanTags_text (fun c hc => (okText_mem hwf.1 c hc).1)]
      simp only [tagNames, List.filterMap_cons]
      exact ihl
    | tag sl n a =>
      obtain ⟨hn, hnw, hag, hah⟩ := wfTag_parts hwf.1
      rw [renderF_cons, renderTag_append]
      rw [scanTags_cons_some (parseTag_token hn hnw (a_all_notGt hag) hah (renderF l))]
      simp only [tagNames, List.filterMap_cons] at ihl ⊢
      rw [ihl]

theorem wfFrag_filter (l : List HItem) (p : HItem → Bool) (h : wfFrag l = true) :
    wfFrag (l.filter p) = true := by
  apply List.all_eq_true.mpr
  intro it hit
  exact List.all_eq_true.mp h it (List.mem_of_mem_filter hit)

theorem removeTag_renderF {tag : List Char} (htw : tag.all wordChar = true) :
    ∀ l : List HItem, wfFrag l = true →
      removeTag tag (renderF l) = renderF (l.filter (fun it => !hitsTag tag it)) := by
  intro l
  induction l with
  | nil => intro _; rfl
  | cons it l ih =>
    intro hwf
    simp only [wfFrag, List.all_cons, Bool.and_eq_true] at hwf
    have ihl := ih hwf.2
    cases it with
    | text t =>
      rw [renderF_cons]
      simp only [renderItem]
      rw [removeTag_text (fun c hc => (okText_mem hwf.1 c hc).1), ihl]
      simp only [List.filter_cons, hitsTag, Bool.not_false, eq_self_iff_true, if_true]
      rw [renderF_cons]
      rfl
    | tag sl n a =>
      obtain ⟨hn, hnw, hag, hah⟩ := wfTag_parts hwf.1
      rw [renderF_cons, renderTag_append]
      have hrp := @remParse_token sl tag n a hn hnw (a_all_notGt hag) hah htw (renderF l)
      by_cases hci : ciStarts tag n = true
      · rw [if_pos hci] at hrp
        rw [removeTag_cons_some hrp, ihl]
        simp only [List.filter_cons, hitsTag, hci, Bool.not_true, Bool.false_eq_true,
          if_false]
      · have hci' : ciStarts tag n = false := by
          revert hci
          cases ciStarts tag n <;> simp
        rw [hci'] at hrp
        simp only [Bool.false_eq_true, if_false] at hrp
        rw [removeTag_cons_none hrp]
        rw [inner_split]
        rw [removeTag_text (bodyflat_no_lt hnw hag), ihl]
        simp only [List.filter_cons, hitsTag, hci', Bool.not_false, eq_self_iff_true,
          if_true]
        rw [renderF_cons, renderTag_append, inner_split]
        simp [List.append_assoc]

theorem removeBr_renderF :
    ∀ l : List HItem, wfFrag l = true →
      removeBr (renderF l) = renderF (l.filter (fun it => !isBrItem it)) := by
  intro l
  induction l with
  | nil => intro _; rfl
  | cons it l ih =>
    intro hwf
    simp only [wfFrag, List.all_cons, Bool.and_eq_true] at hwf
    have ihl := ih hwf.2
    cases it with
    | text t =>
      rw [renderF_cons]
      simp only [renderItem]
      rw [removeBr_text (fun c hc => (okText_mem hwf.1 c hc).1), ihl]
      simp only [List.filter_cons, isBrItem, Bool.not_false, eq_self_iff_true, if_true]
      rw [renderF_cons]
      rfl
    | tag sl n a =>
      obtain ⟨hn, hnw, hag, hah⟩ := wfTag_parts hwf.1
      rw [renderF_cons, renderTag_append]
      have hbp := @brParse_token sl n a hn hnw hag hah (renderF l)
      by_cases hbr : isBrItem (.tag sl n a) = true
      · rw [if_pos hbr] at hbp
        rw [removeBr_cons_some hbp, ihl]
        simp only [List.filter_cons, hbr, Bool.not_true, Bool.false_eq_true, if_false]
      · have hbr' : isBrItem (.tag sl n a) = false := by
          revert hbr
          cases isBrItem (.tag sl n a) <;> simp
        rw [hbr'] at hbp
        simp only [Bool.false_eq_true, if_false] at hbp
        rw [removeBr_cons_none hbp]
        rw [inner_split]
        rw [removeBr_text (bodyflat_no_lt hnw hag), ihl]
        simp only [List.filter_cons, hbr', Bool.not_false, eq_self_iff_true, if_true]
        rw [renderF_cons, renderTag_append, inner_split]
        simp [List.append_assoc]

theorem searchBr_renderF :
    ∀ l : List HItem, wfFrag l = true → searchBr (renderF l) = l.any isBrItem := by
  intro l
  induction l with
  | nil => intro _; rfl
  | cons it l ih =>
    intro hwf
    simp only [wfFrag, List.all_cons, Bool.and_eq_true] at hwf
    have ihl := ih hwf.2
    cases it with
    | text t =>
      rw [renderF_cons]
      simp only [renderItem, searchBr] at ihl ⊢
      rw [anySuffix_text (fun c hc => (okText_mem hwf.1 c hc).1), ihl]
      simp only [List.any_cons, isBrItem, Bool.false_or]
    | tag sl n a =>
      obtain ⟨hn, hnw, hag, hah⟩ := wfTag_parts hwf.1
      rw [renderF_cons, renderTag_append]
      have hbp := @brParse_token sl n a hn hnw hag hah (renderF l)
      simp only [searchBr, anySuffix] at ihl ⊢
      have hm : matchBrAt ('<' :: ((if sl then ['/'] else [])
          ++ (n ++ (a ++ ('>' :: renderF l))))) = isBrItem (.tag sl n a) := by
        simp only [matchBrAt, eq_self_iff_true, decide_True, Bool.true_and, hbp]
        by_cases hbr : isBrItem (.tag sl n a) = true
        · rw [if_pos hbr, hbr]
          rfl
        · have hbr' : isBrItem (.tag sl n a) = false := by
            revert hbr
            cases isBrItem (.tag sl n a) <;> simp
          rw [hbr']
          simp
      rw [hm]
      rw [inner_split, anySuffix_text (bodyflat_no_lt hnw hag), ihl]
      simp only [List.any_cons]

/-! ### Scanned names are well formed -/

theorem parseTag_name {rest n after : List Char} (h : parseTag rest = some (n, after)) :
    n ≠ [] ∧ n.all wordChar = true := by
  simp only [parseTag] at h
  split at h
  · exact Option.noConfusion h
  · next he =>
    split at h
    · exact Option.noConfusion h
    · simp only [Option.some.injEq, Prod.mk.injEq] at h
      obtain ⟨hn, _⟩ := h
      subst hn
      constructor
      · intro hnil
        rw [hnil] at he
        exact he rfl
      · exact List.all_takeWhile

theorem scanTagsF_names : ∀ (f : Nat) (s n : List Char),
    n ∈ scanTagsF f s → n ≠ [] ∧ n.all wordChar = true := by
  intro f
  induction f with
  | zero =>
    intro s n h
    simp only [scanTagsF, List.not_mem_nil] at h
  | succ f ih =>
    intro s n h
    cases s with
    | nil => simp only [scanTagsF, List.not_mem_nil] at h
    | cons c rest =>
      simp only [scanTagsF] at h
      split at h
      · split at h
        · next hp =>
          rcases List.mem_cons.mp h with h1 | h1
          · subst h1
            exact parseTag_name hp
          · exact ih _ n h1
        · exact ih rest n h
      · exact ih rest n h

theorem scanTags_names {s n : List Char} (h : n ∈ scanTags s) :
    n ≠ [] ∧ n.all wordChar = true := scanTagsF_names _ s n h

/-! ### Membership through `dedupFirst` -/

theorem dedupF_sub : ∀ (l seen : List (List Char)) (x : List Char),
    x ∈ dedupF seen l → x ∈ l := by
  intro l
  induction l with
  | nil =>
    intro seen x h
    simp only [dedupF, List.not_mem_nil] at h
  | cons y ys ih =>
    intro seen x h
    simp only [dedupF] at h
    split at h
    · exact List.mem_cons_of_mem _ (ih seen x h)
    · rcases List.mem_cons.mp h with h1 | h1
      · subst h1
        exact List.mem_cons_self _ _
      · exact List.mem_cons_of_mem _ (ih _ x h1)

theorem mem_dedupF : ∀ (l seen : List (List Char)) (x : List Char),
    x ∈ l → x ∈ seen ∨ x ∈ dedupF seen l := by
  intro l
  induction l with
  | nil =>
    intro seen x h
    exact absurd h (List.not_mem_nil x)
  | cons y ys ih =>
    intro seen x h
    simp only [dedupF]
    rcases List.mem_cons.mp h with h1 | h1
    · subst h1
      split
      · next hc => exact Or.inl (List.mem_of_elem_eq_true hc)
      · exact Or.inr (List.mem_cons_self _ _)
    · split
      · exact ih seen x h1
      · rcases ih (y :: seen) x h1 with h2 | h2
        · rcases List.mem_cons.mp h2 with h3 | h3
          · subst h3
            exact Or.inr (List.mem_cons_self _ _)
          · exact Or.inl h3
        · exact Or.inr (List.mem_cons_of_mem _ h2)

theorem mem_dedupFirst {l : List (List Char)} {x : List Char} (h : x ∈ l) :
    x ∈ dedupFirst l := by
  rcases mem_dedupF l [] x h with h1 | h1
  · exact absurd h1 (List.not_mem_nil x)
  · exact h1

theorem dedupFirst_sub {l : List (List Char)} {x : List Char} (h : x ∈ dedupFirst l) :
    x ∈ l := dedupF_sub l [] x h

/-! ### The removal loop on rendered fragments -/

theorem tagNames_mem {l : List HItem} {sl : Bool} {n a : List Char}
    (h : HItem.tag sl n a ∈ l) : n ∈ tagNames l := by
  simp only [tagNames, List.mem_filterMap]
  exact ⟨_, h, rfl⟩

theorem tagNames_mem_inv {l : List HItem} {n : List Char} (h : n ∈ tagNames l) :
    ∃ sl a, HItem.tag sl n a ∈ l := by
  simp only [tagNames, List.mem_filterMap] at h
  obtain ⟨it, hit, hm⟩ := h
  cases it with
  | text t => exact Option.noConfusion hm
  | tag sl n' a =>
    simp only [Option.some.injEq] at hm
    subst hm
    exact ⟨sl, a, hit⟩

theorem fold_removeTag_renderF :
    ∀ (ord : List (List Char)) (l : List HItem), wfFrag l = true →
      (∀ t ∈ ord, t.all wordChar = true) →
      ord.foldl (fun h tag => if allowedTag tag then h else removeTag tag h) (renderF l)
        = renderF (l.filter (keepItem ord)) := by
  intro ord
  induction ord with
  | nil =>
    intro l hwf _
    simp only [List.foldl_nil]
    congr 1
    symm
    apply List.filter_eq_self.mpr
    intro it _
    rfl
  | cons tg ord ih =>
    intro l hwf hw
    simp only [List.foldl_cons]
    by_cases hal : allowedTag tg = true
    · rw [if_pos hal, ih l hwf (fun t ht => hw t (List.mem_cons_of_mem _ ht))]
      congr 1
      apply List.filter_congr
      intro it _
      simp only [keepItem, List.all_cons, hal, Bool.true_or, Bool.true_and]
    · rw [if_neg hal]
      rw [removeTag_renderF (hw tg (List.mem_cons_self _ _)) l hwf]
      rw [ih _ (wfFrag_filter l _ hwf) (fun t ht => hw t (List.mem_cons_of_mem _ ht))]
      rw [List.filter_filter]
      congr 1
      apply List.filter_congr
      intro it _
      have hal' : allowedTag tg = false := by
        revert hal
        cases allowedTag tg <;> simp
      simp only [keepItem, List.all_cons, hal', Bool.false_or]
      exact Bool.and_comm _ _

theorem kept_names_allowed {ord : List (List Char)} {l : List HItem}
    (hcov : ∀ n ∈ tagNames l, n ∈ ord) {sl : Bool} {n a : List Char}
    (hit : HItem.tag sl n a ∈ l) (hk : keepItem ord (HItem.tag sl n a) = true) :
    allowedTag n = true := by
  have hmem : n ∈ ord := hcov n (tagNames_mem hit)
  simp only [keepItem] at hk
  have h2 := List.all_eq_true.mp hk n hmem
  simp only [hitsTag, ciStarts_refl, Bool.not_true, Bool.or_false] at h2
  exact h2

theorem kept_not_br {ord : List (List Char)} {l : List HItem}
    (hcov : ∀ n ∈ tagNames l, n ∈ ord) {it : HItem} (hit : it ∈ l)
    (hk : keepItem ord it = true) : isBrItem it = false := by
  cases it with
  | text t => rfl
  | tag sl n a =>
    cases hbr : isBrItem (HItem.tag sl n a) with
    | false => rfl
    | true =>
      exfalso
      have hall := kept_names_allowed hcov hit hk
      simp only [isBrItem, Bool.and_eq_true, Bool.not_eq_true', beq_iff_eq] at hbr
      obtain ⟨⟨hsl, hname⟩, _⟩ := hbr
      simp only [allowedTag, hname] at hall
      exact absurd hall (by decide)

theorem simplify_with_renderF {ord : List (List Char)} {l : List HItem}
    (hwf : wfFrag l = true)
    (hw : ∀ t ∈ ord, t.all wordChar = true)
    (hcov : ∀ n ∈ tagNames l, n ∈ ord) :
    simplify_html_with ord (renderF l) = renderF (l.filter (keepItem ord)) := by
  unfold simplify_html_with
  rw [fold_removeTag_renderF ord l hwf hw]
  rw [removeBr_renderF _ (wfFrag_filter l _ hwf)]
  congr 1
  apply List.filter_eq_self.mpr
  intro it hit
  rw [kept_not_br hcov (List.mem_of_mem_filter hit) (List.of_mem_filter hit)]
  rfl

theorem simplify_renderF {l : List HItem} (hwf : wfFrag l = true) :
    simplify_html (renderF l)
      = renderF (l.filter (keepItem (dedupFirst (scanTags (renderF l))))) := by
  unfold simplify_html
  apply simplify_with_renderF hwf
  · intro t ht
    exact (scanTags_names (dedupFirst_sub ht)).2
  · intro n hn
    apply mem_dedupFirst
    rw [scanTags_renderF l hwf]
    exact hn

theorem simplify_kept_allowed {l : List HItem} (hwf : wfFrag l = true) :
    ∀ n ∈ tagNames (l.filter (keepItem (dedupFirst (scanTags (renderF l))))),
      allowedTag n = true := by
  intro n hn
  obtain ⟨sl, a, hmem⟩ := tagNames_mem_inv hn
  apply kept_names_allowed ?_ (List.mem_of_mem_filter hmem) (List.of_mem_filter hmem)
  intro m hm
  apply mem_dedupFirst
  rw [scanTags_renderF l hwf]
  exact hm

theorem simplify_idem_renderF {l : List HItem} (hwf : wfFrag l = true) :
    simplify_html (simplify_html (renderF l)) = simplify_html (renderF l) := by
  rw [simplify_renderF hwf]
  have hwf' : wfFrag (l.filter (keepItem (dedupFirst (scanTags (renderF l))))) = true :=
    wfFrag_filter l _ hwf
  rw [simplify_renderF hwf']
  congr 1
  apply List.filter_eq_self.mpr
  intro it hit
  simp only [keepItem]
  apply List.all_eq_true.mpr
  intro t ht
  have htall : allowedTag t = true := by
    apply simplify_kept_allowed hwf
    rw [← scanTags_renderF _ hwf']
    exact dedupFirst_sub ht
  simp only [htall, Bool.true_or]

theorem keepItem_perm {ord ord' : List (List Char)} (hp : List.Perm ord ord')
    (it : HItem) : keepItem ord it = keepItem ord' it := by
  have h1 : keepItem ord it = true ↔ keepItem ord' it = true := by
    simp only [keepItem, List.all_eq_true]
    constructor
    · intro h t ht
      exact h t (hp.mem_iff.mpr ht)
    · intro h t ht
      exact h t (hp.mem_iff.mp ht)
  cases h2 : keepItem ord' it with
  | true => exact h1.mpr h2
  | false =>
    cases h3 : keepItem ord it with
    | true =>
      have h4 := h1.mp h3
      rw [h2] at h4
      exact Bool.noConfusion h4
    | false => rfl

/-! ### Claims C1-C4 and C8 -/

/-- C1 counterexample: on the fragment `<<a>script<a>>` the two removals of the
scanned name `a` splice the leftover characters into a fresh `<script>` token,
so the sanitized output contains a tag name outside the allow-list. -/
theorem claim_C1_counterexample :
    simplify_html (toL "<<a>script<a>>") = toL "<script>"
    ∧ scanTags (toL "<script>") = [toL "script"]
    ∧ allowedTag (toL "script") = false := by
  refine ⟨by decide, by decide, by decide⟩

/-- C1 (amended): on well-formed fragments — concatenations of bracket-free
text blocks and complete tag tokens — every tag name scanned from
`simplify_html`'s output is on the allow-list, and the output contains no
`<br>` token.  (The original unrestricted claim fails: removals can splice
new tag tokens, see the counterexample.) -/
theorem claim_C1 (l : List HItem) (hwf : wfFrag l = true) :
    (∀ n ∈ scanTags (simplify_html (renderF l)), allowedTag n = true)
    ∧ searchBr (simplify_html (renderF l)) = false := by
  have hwf' : wfFrag (l.filter (keepItem (dedupFirst (scanTags (renderF l))))) = true :=
    wfFrag_filter l _ hwf
  have hcov : ∀ m ∈ tagNames l, m ∈ dedupFirst (scanTags (renderF l)) := by
    intro m hm
    apply mem_dedupFirst
    rw [scanTags_renderF l hwf]
    exact hm
  rw [simplify_renderF hwf]
  constructor
  · intro n hn
    rw [scanTags_renderF _ hwf'] at hn
    exact simplify_kept_allowed hwf n hn
  · rw [searchBr_renderF _ hwf']
    apply List.any_eq_false.mpr
    intro it hit htrue
    rw [kept_not_br hcov (List.mem_of_mem_filter hit) (List.of_mem_filter hit)] at htrue
    exact Bool.noConfusion htrue

theorem claim_C1_witness :
    (∀ n ∈ scanTags (simplify_html (renderF
        [HItem.tag false (toL "p") [], HItem.text (toL "x"),
         HItem.tag false (toL "br") (toL " /"), HItem.tag true (toL "p") []])),
      allowedTag n = true)
    ∧ searchBr (simplify_html (renderF
        [HItem.tag false (toL "p") [], HItem.text (toL "x"),
         HItem.tag false (toL "br") (toL " /"), HItem.tag true (toL "p") []])) = false :=
  claim_C1 _ (by decide)

/-- C2 counterexample: on `<<a>script<a>>` the first pass splices a fresh
`<script>` token, which a second pass then removes, so the sanitizer is not
idempotent on arbitrary strings. -/
theorem claim_C2_counterexample :
    simplify_html (simplify_html (toL "<<a>script<a>>"))
      ≠ simplify_html (toL "<<a>script<a>>") := by
  decide

/-- C2 (amended): on well-formed fragments the sanitizer is idempotent:
a second pass of `simplify_html` removes nothing new. -/
theorem claim_C2 (l : List HItem) (hwf : wfFrag l = true) :
    simplify_html (simplify_html (renderF l)) = simplify_html (renderF l) :=
  simplify_idem_renderF hwf

theorem claim_C2_witness :
    simplify_html (simplify_html (renderF
        [HItem.tag false (toL "script") [], HItem.text (toL "hi"),
         HItem.tag true (toL "script") []]))
      = simplify_html (renderF
        [HItem.tag false (toL "script") [], HItem.text (toL "hi"),
         HItem.tag true (toL "script") []]) :=
  claim_C2 _ (by decide)

/-- C3 counterexample: the removal pattern for the scanned name `t` also
matches every tag whose name merely starts with `t`, so sanitizing
`<t>x</t><table>y</table>` also strips the allow-listed `<table>` and
`</table>` tokens instead of leaving them unchanged. -/
theorem claim_C3_counterexample :
    simplify_html (toL "<t>x</t><table>y</table>") = toL "xy"
    ∧ simplify_html (toL "<t>x</t><table>y</table>") ≠ toL "x<table>y</table>" := by
  refine ⟨by decide, by decide⟩

/-- C3 (amended): on a well-formed all-ASCII fragment `simplify_html` acts
as a filter on the items: it deletes exactly the tag tokens whose name is
matched (case-insensitively, as a prefix) by some scanned non-allow-listed
name, and keeps every text block and every other tag token verbatim, in
order.  (The original claim fails: removal is by prefix, so an allow-listed
`<table>` token is deleted whenever a disallowed name `t` is scanned.  The
ASCII restriction is needed because Python's `\w` is Unicode: on a fragment
with a non-ASCII word character in a tag, such as `<p日>hello</p日>`, the
program scans the non-allow-listed name `p日` and deletes those tokens,
which this model, scanning the name `p`, would keep.) -/
theorem claim_C3 (l : List HItem) (hwf : wfFrag l = true)
    (_hascii : asciiFrag l = true) :
    simplify_html (renderF l)
      = renderF (l.filter (keepItem (dedupFirst (scanTags (renderF l))))) :=
  simplify_renderF hwf

theorem claim_C3_witness :
    simplify_html (renderF
        [HItem.tag false (toL "h2") [], HItem.text (toL "A"),
         HItem.tag true (toL "h2") [], HItem.tag false (toL "script") [],
         HItem.text (toL "bad"), HItem.tag true (toL "script") []])
      = renderF (List.filter (keepItem (dedupFirst (scanTags (renderF
          [HItem.tag false (toL "h2") [], HItem.text (toL "A"),
           HItem.tag true (toL "h2") [], HItem.tag false (toL "script") [],
           HItem.text (toL "bad"), HItem.tag true (toL "script") []]))))
        [HItem.tag false (toL "h2") [], HItem.text (toL "A"),
         HItem.tag true (toL "h2") [], HItem.tag false (toL "script") [],
         HItem.text (toL "bad"), HItem.tag true (toL "script") []]) :=
  claim_C3 _ (by decide) (by decide)

/-- C4 counterexample: `simplify_html` strips only the `<script>` and
`</script>` tokens, so the inner text `bad()` remains and the output is not
`<h2>A</h2><p>short.</p>`. -/
theorem claim_C4_counterexample :
    simplify_html (toL "<h2>A</h2><p>short.</p><script>bad()</script>")
      ≠ toL "<h2>A</h2><p>short.</p>" := by
  decide

/-- C4 (amended): on the concrete input the sanitizer returns
`<h2>A</h2><p>short.</p>bad()` — the script tokens are removed but the inner
text stays — and `validate_article` on the pre-sanitized string does emit the
forbidden-tag warning. -/
theorem claim_C4 :
    simplify_html (toL "<h2>A</h2><p>short.</p><script>bad()</script>")
      = toL "<h2>A</h2><p>short.</p>bad()"
    ∧ wForbidden ∈ validate_article (toL "<h2>A</h2><p>short.</p><script>bad()</script>") := by
  refine ⟨by decide, by decide⟩

/-- C8 counterexample: `simplify_html`'s removal loop runs over a Python
`set`, whose iteration order is not fixed; on `<b x><<a>b<a>>` the two
possible orders of the scanned names `a` and `b` give different outputs, so
`simplify_html` is not deterministic. -/
theorem claim_C8_counterexample :
    List.Perm [toL "a", toL "b"] [toL "b", toL "a"]
    ∧ simplify_html_with [toL "a", toL "b"] (toL "<b x><<a>b<a>>")
      ≠ simplify_html_with [toL "b", toL "a"] (toL "<b x><<a>b<a>>") :=
  ⟨List.Perm.swap _ _ _, by decide⟩

/-- C8 (amended): `generate_permalink` is timestamp-independent whenever the
slug core is non-empty (only the empty fallback reads the clock), and on
well-formed fragments `simplify_html` is order-independent: any iteration
order of the set of scanned names gives the same output.  (On arbitrary
strings order-independence fails, see the counterexample; the other pipeline
stages are pure functions of their input by construction.) -/
theorem claim_C8 :
    (∀ (pyLower pyNFKD : List Char → List Char) (ts₁ ts₂ : Nat) (kw : List Char),
        slugCore pyLower pyNFKD kw ≠ [] →
        generate_permalink pyLower pyNFKD ts₁ kw
          = generate_permalink pyLower pyNFKD ts₂ kw)
    ∧ (∀ (ord : List (List Char)) (l : List HItem), wfFrag l = true →
        List.Perm ord (dedupFirst (scanTags (renderF l))) →
        simplify_html_with ord (renderF l) = simplify_html (renderF l)) := by
  constructor
  · intro pyLower pyNFKD ts₁ ts₂ kw h
    simp only [generate_permalink]
    rw [if_neg h, if_neg h]
  · intro ord l hwf hp
    have hcov : ∀ n ∈ tagNames l, n ∈ ord := by
      intro n hn
      apply hp.mem_iff.mpr
      apply mem_dedupFirst
      rw [scanTags_renderF l hwf]
      exact hn
    have hword : ∀ t ∈ ord, t.all wordChar = true := by
      intro t ht
      exact (scanTags_names (dedupFirst_sub (hp.mem_iff.mp ht))).2
    rw [simplify_with_renderF hwf hword hcov, simplify_renderF hwf]
    congr 1
    apply List.filter_congr
    intro it _
    exact keepItem_perm hp it

theorem claim_C8_witness :
    generate_permalink (fun s => s) (fun s => s) 1 (toL "abc")
      = generate_permalink (fun s => s) (fun s => s) 2 (toL "abc")
    ∧ simplify_html_with
        (dedupFirst (scanTags (renderF [HItem.tag false (toL "p") (toL " x")])))
        (renderF [HItem.tag false (toL "p") (toL " x")])
      = simplify_html (renderF [HItem.tag false (toL "p") (toL " x")]) :=
  ⟨claim_C8.1 _ _ 1 2 _ (by decide),
   claim_C8.2 _ _ (by decide) (List.Perm.refl _)⟩
